import Mathlib

/-!
# Hexagonal pixel grid of `allpix::HexagonalPixelDetectorModel`

Shallow embedding of `src/core/geometry/HexagonalPixelDetectorModel.hpp`.

The C++ code computes with `double`; the embedding computes in an arbitrary
linearly ordered field `K` with a floor function, and takes the value of
`std::sqrt(3)` as the explicit argument `sqrt3`.  The theorems instantiate
`K` with the real numbers and `sqrt3` with `Real.sqrt 3`, i.e. they speak
about the code under exact real arithmetic.  The `int` variables are
unbounded integers; the C++ remainder `%` on `int` is `Int.tmod`
(truncated towards zero).
-/

set_option linter.unusedSectionVars false

namespace allpix
namespace HexagonalPixelDetectorModel

variable {K : Type} [LinearOrderedField K] [FloorRing K]

/-! ## Local variables of `getPixelIndex` (lines 34-46) -/

/-- Line 35: `double side = pixelsize / std::sqrt(3);` -/
def side (sqrt3 pixelsize : K) : K := pixelsize / sqrt3

/-- Line 36: `double minor_radius = pixelsize / 2;` -/
def minor_radius (pixelsize : K) : K := pixelsize / 2

/-- Line 37: `double posx = position.x() + minor_radius;` -/
def posx (pixelsize x : K) : K := x + minor_radius pixelsize

/-- Line 38: `double posy = position.y() + side;` -/
def posy (sqrt3 pixelsize y : K) : K := y + side sqrt3 pixelsize

/-- Line 40: `int x_modulus = static_cast<int>(std::floor(posx / minor_radius));` -/
def x_modulus (pixelsize x : K) : Int :=
  Int.floor (posx pixelsize x / minor_radius pixelsize)

/-- Line 41: `int y_modulus = static_cast<int>(std::floor(((posy / (3 * side))
- std::floor(posy / (3 * side))) * 6));` -/
def y_modulus (sqrt3 pixelsize y : K) : Int :=
  Int.floor (((posy sqrt3 pixelsize y / (3 * side sqrt3 pixelsize))
    - (Int.floor (posy sqrt3 pixelsize y / (3 * side sqrt3 pixelsize)) : K)) * 6)

/-- Line 45: `int xpixel = static_cast<int>(std::ceil(posx / pixelsize));`
(the value before the `switch`, the spec's `col_guess`). -/
def xpixel (pixelsize x : K) : Int :=
  Int.ceil (posx pixelsize x / pixelsize)

/-- Line 46: `int ypixel = static_cast<int>(2 * std::floor(posy / (3 * side)) + 1);`
(the value before the `switch`, the spec's `row_guess`). -/
def ypixel (sqrt3 pixelsize y : K) : Int :=
  2 * Int.floor (posy sqrt3 pixelsize y / (3 * side sqrt3 pixelsize)) + 1

/-! ## The `switch (y_modulus % 6)` statement (lines 48-95) -/

/-- The case labels of the `switch` statement. -/
inductive Label where
  | case0
  | case1_2
  | case3
  | case4_5
  | default
  deriving DecidableEq, Repr

/-- Which label of `switch (y_modulus % 6)` the selector value jumps to. -/
def switchLabel (sel : Int) : Label :=
  if sel = 0 then Label.case0
  else if sel = 1 ∨ sel = 2 then Label.case1_2
  else if sel = 3 then Label.case3
  else if sel = 4 ∨ sel = 5 then Label.case4_5
  else Label.default

/-- Line 51: the value assigned to `offset` in `case 0`, `x_modulus % 2 == 0`. -/
def offset_case0_even (sqrt3 side minor_radius posy : K) (x_modulus : Int) : K :=
  (3 * side * (Int.floor (posy / (3 * side)) : K))
    + ((sqrt3 / 3) * (((x_modulus + 1 : Int) : K) * minor_radius))

/-- Line 57: the value assigned to `offset` in `case 0`, `x_modulus` odd. -/
def offset_case0_odd (sqrt3 side minor_radius posy : K) (x_modulus : Int) : K :=
  (3 * side * (Int.floor (posy / (3 * side)) : K))
    - ((sqrt3 / 3) * ((x_modulus : K) * minor_radius))

/-- Line 69: the value assigned to `offset` in `case 3`, `x_modulus % 2 == 0`. -/
def offset_case3_even (sqrt3 side minor_radius posy : K) (x_modulus : Int) : K :=
  side * (3 * (Int.floor (posy / (3 * side)) : K) + 2)
    - (sqrt3 / 3) * (minor_radius * ((x_modulus + 1 : Int) : K))

/-- Line 75: the value assigned to `offset` in `case 3`, `x_modulus` odd. -/
def offset_case3_odd (sqrt3 side minor_radius posy : K) (x_modulus : Int) : K :=
  side * (3 * (Int.floor (posy / (3 * side)) : K) + 2)
    + ((sqrt3 / 3) * (minor_radius * (x_modulus : K)))

/-- Lines 48-95: the `switch` statement.  It receives the locals computed
before it and yields the values of `(xpixel, ypixel)` after it. -/
def switchStmt (sqrt3 side minor_radius posx posy : K)
    (x_modulus y_modulus xpixel ypixel : Int) : Int × Int :=
  match switchLabel (Int.tmod y_modulus 6) with
  | Label.case0 =>
    if Int.tmod x_modulus 2 = 0 then
      if posy < (-(sqrt3 / 3) * posx
          + offset_case0_even sqrt3 side minor_radius posy x_modulus) then
        (xpixel - 1, ypixel - 1)
      else (xpixel, ypixel)
    else if Int.tmod x_modulus 2 = 1 ∨ Int.tmod x_modulus 2 = -1 then
      if posy < ((sqrt3 / 3) * posx
          + offset_case0_odd sqrt3 side minor_radius posy x_modulus) then
        (xpixel, ypixel - 1)
      else (xpixel, ypixel)
    else (xpixel, ypixel)
  | Label.case1_2 => (xpixel, ypixel)
  | Label.case3 =>
    if Int.tmod x_modulus 2 = 0 then
      if posy > ((sqrt3 / 3) * posx
          + offset_case3_even sqrt3 side minor_radius posy x_modulus) then
        (xpixel - 1, ypixel + 1)
      else (xpixel, ypixel)
    else if Int.tmod x_modulus 2 = 1 ∨ Int.tmod x_modulus 2 = -1 then
      if posy > (-(sqrt3 / 3) * posx
          + offset_case3_odd sqrt3 side minor_radius posy x_modulus) then
        (xpixel, ypixel + 1)
      else (xpixel, ypixel)
    else (xpixel, ypixel)
  | Label.case4_5 =>
    if Int.tmod x_modulus 2 = 0 then (xpixel - 1, ypixel + 1)
    else if Int.tmod x_modulus 2 = 1 ∨ Int.tmod x_modulus 2 = -1 then (xpixel, ypixel + 1)
    else (xpixel, ypixel)
  | Label.default => (-1, -1)

/-- Lines 33-99: `getPixelIndex`.  `pixelsize` is `getPixelSize().x()`,
`x` and `y` are `position.x()` and `position.y()` (`position.z()` is not
read).  The result is `{xpixel - 1, ypixel - 1}` of line 98. -/
def getPixelIndex (sqrt3 pixelsize x y : K) : Int × Int :=
  let r := switchStmt sqrt3 (side sqrt3 pixelsize) (minor_radius pixelsize)
    (posx pixelsize x) (posy sqrt3 pixelsize y)
    (x_modulus pixelsize x) (y_modulus sqrt3 pixelsize y)
    (xpixel pixelsize x) (ypixel sqrt3 pixelsize y)
  (r.1 - 1, r.2 - 1)

/-- Lines 48-98: the `switch` statement followed by the `return` statement of
line 98, as a function of the locals of lines 34-46.  `getPixelIndex` is this
function at the locals computed from the position
(`getPixelIndex_eq_switchReturn`); here the selector `y_modulus` is an argument,
so that the `default` label can be looked at. -/
def switchReturn (sqrt3 side minor_radius posx posy : K)
    (x_modulus y_modulus xpixel ypixel : Int) : Int × Int :=
  let r := switchStmt sqrt3 side minor_radius posx posy x_modulus y_modulus xpixel ypixel
  (r.1 - 1, r.2 - 1)

/-! ## `getGridSize` (lines 106-117) -/

/-- Lines 106-117: `getGridSize`.  `npixels_x` and `npixels_y` are
`getNPixels().x()` and `getNPixels().y()` (`unsigned int`, taken below `2^32`),
`pixelsize` is `getPixelSize().x()`.  The subtraction, the division and the
multiplication by 3 on `pixely_num` are `unsigned int` operations, modulo
`2^32`; their result is then converted to `double`.  The result is the
vector `(x_gridsize, y_gridsize, 0)`. -/
def getGridSize (sqrt3 pixelsize : K) (npixels_x npixels_y : Nat) : K × K × K :=
  let x_gridsize : K := (npixels_x : K) * pixelsize
  let pixely_num : Nat := npixels_y
  let side : K := pixelsize / sqrt3
  let y_gridsize : K :=
    if pixely_num % 2 = 1 then
      ((((((pixely_num + 2 ^ 32 - 1) % 2 ^ 32) / 2) * 3) % 2 ^ 32 : Nat) : K) * side
        + (2 * side)
    else if pixely_num % 2 = 0 then
      ((((pixely_num / 2) * 3) % 2 ^ 32 : Nat) : K) * side + (side / 2)
    else 0
  (x_gridsize, y_gridsize, 0)

/-! ## Auxiliary definitions used in the statements and proofs -/

/-- Proof device: the `switch` statement of `getPixelIndex` expressed in the
dimensionless coordinates `u = posx / pixelsize` and `v = posy / (3 * side)`,
with `m = x_modulus`, `k = floor(posy / (3 * side))`, `b = y_modulus` and
`c = xpixel` (before the `switch`). -/
def unitSwitch (u v : K) (m k b c : Int) : Int × Int :=
  match switchLabel (Int.tmod b 6) with
  | Label.case0 =>
    if m % 2 = 0 then
      if 3 * v < -u + 3 * (k : K) + ((m : K) + 1) / 2 then (c - 1, 2 * k + 1 - 1)
      else (c, 2 * k + 1)
    else if m % 2 = 1 then
      if 3 * v < u + 3 * (k : K) - (m : K) / 2 then (c, 2 * k + 1 - 1)
      else (c, 2 * k + 1)
    else (c, 2 * k + 1)
  | Label.case1_2 => (c, 2 * k + 1)
  | Label.case3 =>
    if m % 2 = 0 then
      if 3 * v > u + 3 * (k : K) + 2 - ((m : K) + 1) / 2 then (c - 1, 2 * k + 1 + 1)
      else (c, 2 * k + 1)
    else if m % 2 = 1 then
      if 3 * v > -u + 3 * (k : K) + 2 + (m : K) / 2 then (c, 2 * k + 1 + 1)
      else (c, 2 * k + 1)
    else (c, 2 * k + 1)
  | Label.case4_5 =>
    if m % 2 = 0 then (c - 1, 2 * k + 1 + 1)
    else if m % 2 = 1 then (c, 2 * k + 1 + 1)
    else (c, 2 * k + 1)
  | Label.default => (-1, -1)

/-- Proof device: the computation of `getPixelIndex` expressed in the
dimensionless coordinates `u = posx / pixelsize` and `v = posy / (3 * side)`.
`getPixelIndex_eq_unitIndex` shows that the embedded code computes exactly
this whenever `pixelsize > 0` and `sqrt3` is the positive square root of 3. -/
def unitIndex (u v : K) : Int × Int :=
  let r := unitSwitch u v (Int.floor (2 * u)) (Int.floor v)
    (Int.floor ((v - (Int.floor v : K)) * 6)) (Int.ceil u)
  (r.1 - 1, r.2 - 1)

/-- The closed hexagon of pixel `(c, r)` as the claims describe it: centre
`cx = c*pitch (+ pitch/2 when r is odd)`, `cy = 1.5*side*r`, and the point
`(x, y)` satisfies `|x - cx| ≤ pitch/2` and `|y - cy| + |x - cx|/sqrt3 ≤ side`. -/
def inHexagon (sqrt3 pitch x y : K) (c r : Int) : Prop :=
  let cx : K := (c : K) * pitch + (if r % 2 = 0 then 0 else pitch / 2)
  let cy : K := (3 / 2) * side sqrt3 pitch * (r : K)
  |x - cx| ≤ pitch / 2 ∧ |y - cy| + |x - cx| / sqrt3 ≤ side sqrt3 pitch

/-- Proof device: `inHexagon` in the dimensionless coordinates
`u = posx / pixelsize`, `v = posy / (3 * side)`. -/
def inUnitHexagon (u v : K) (c r : Int) : Prop :=
  |u - 1 / 2 - (c : K) - (if r % 2 = 0 then 0 else 1 / 2)| ≤ 1 / 2
    ∧ |3 * v - 1 - (3 / 2) * (r : K)|
        + |u - 1 / 2 - (c : K) - (if r % 2 = 0 then 0 else 1 / 2)| ≤ 1

/-- Proof device: the label the `switch` jumps to for the selector `b`,
together with the bounds on `6 * (v - k)` that this band stands for. -/
def bandBounds (v : K) (k b : Int) : Prop :=
  (switchLabel (Int.tmod b 6) = Label.case0
      ∧ 0 ≤ (v - (k : K)) * 6 ∧ (v - (k : K)) * 6 < 1)
  ∨ (switchLabel (Int.tmod b 6) = Label.case1_2
      ∧ 1 ≤ (v - (k : K)) * 6 ∧ (v - (k : K)) * 6 < 3)
  ∨ (switchLabel (Int.tmod b 6) = Label.case3
      ∧ 3 ≤ (v - (k : K)) * 6 ∧ (v - (k : K)) * 6 < 4)
  ∨ (switchLabel (Int.tmod b 6) = Label.case4_5
      ∧ 4 ≤ (v - (k : K)) * 6 ∧ (v - (k : K)) * 6 < 6)

/-- Proof device: off the lines `u ∈ ℤ` the column returned for `(u, v)` is
`floor (u + colShift v k b)`, where `k = floor v` and `b` is the band selector. -/
def colShift (v : K) (k b : Int) : K :=
  match switchLabel (Int.tmod b 6) with
  | Label.case0 => 3 * (v - (k : K)) - 1 / 2
  | Label.case1_2 => 0
  | Label.case3 => 3 / 2 - 3 * (v - (k : K))
  | Label.case4_5 => -(1 / 2)
  | Label.default => 0

/-- The position lies exactly on the line of one of the four conditional
half-plane tests of the `switch`: `case 0` or `case 3`, `x_modulus` even or
odd, and `posy` equal to the right-hand side of the comparison. -/
def onBoundaryLine (sqrt3 pixelsize x y : K) : Prop :=
  (Int.tmod (y_modulus sqrt3 pixelsize y) 6 = 0
      ∧ Int.tmod (x_modulus pixelsize x) 2 = 0
      ∧ posy sqrt3 pixelsize y = -(sqrt3 / 3) * posx pixelsize x
          + offset_case0_even sqrt3 (side sqrt3 pixelsize) (minor_radius pixelsize)
              (posy sqrt3 pixelsize y) (x_modulus pixelsize x))
  ∨ (Int.tmod (y_modulus sqrt3 pixelsize y) 6 = 0
      ∧ (Int.tmod (x_modulus pixelsize x) 2 = 1 ∨ Int.tmod (x_modulus pixelsize x) 2 = -1)
      ∧ posy sqrt3 pixelsize y = (sqrt3 / 3) * posx pixelsize x
          + offset_case0_odd sqrt3 (side sqrt3 pixelsize) (minor_radius pixelsize)
              (posy sqrt3 pixelsize y) (x_modulus pixelsize x))
  ∨ (Int.tmod (y_modulus sqrt3 pixelsize y) 6 = 3
      ∧ Int.tmod (x_modulus pixelsize x) 2 = 0
      ∧ posy sqrt3 pixelsize y = (sqrt3 / 3) * posx pixelsize x
          + offset_case3_even sqrt3 (side sqrt3 pixelsize) (minor_radius pixelsize)
              (posy sqrt3 pixelsize y) (x_modulus pixelsize x))
  ∨ (Int.tmod (y_modulus sqrt3 pixelsize y) 6 = 3
      ∧ (Int.tmod (x_modulus pixelsize x) 2 = 1 ∨ Int.tmod (x_modulus pixelsize x) 2 = -1)
      ∧ posy sqrt3 pixelsize y = -(sqrt3 / 3) * posx pixelsize x
          + offset_case3_odd sqrt3 (side sqrt3 pixelsize) (minor_radius pixelsize)
              (posy sqrt3 pixelsize y) (x_modulus pixelsize x))

/-! ## Basic facts -/

theorem tmod_two_eq_zero_iff (m : Int) : Int.tmod m 2 = 0 ↔ m % 2 = 0 := by
  rcases m with n | n
  · have h : Int.tmod (Int.ofNat n) 2 = ((n % 2 : Nat) : Int) := rfl
    rw [h, Int.ofNat_eq_coe]
    omega
  · have h : Int.tmod (Int.negSucc n) 2 = -((n.succ % 2 : Nat) : Int) := rfl
    rw [h, Int.negSucc_eq]
    omega

theorem tmod_two_odd_iff (m : Int) :
    (Int.tmod m 2 = 1 ∨ Int.tmod m 2 = -1) ↔ m % 2 = 1 := by
  rcases m with n | n
  · have h : Int.tmod (Int.ofNat n) 2 = ((n % 2 : Nat) : Int) := rfl
    rw [h, Int.ofNat_eq_coe]
    omega
  · have h : Int.tmod (Int.negSucc n) 2 = -((n.succ % 2 : Nat) : Int) := rfl
    rw [h, Int.negSucc_eq]
    omega

/-! ## The half-plane tests in dimensionless coordinates -/

theorem test_case0_even (q s u v : K) (k m : Int) (hq3 : q * q = 3) (hs : 0 < s) :
    (3 * s * v < -(q / 3) * (q * s * u)
        + ((3 * s * (k : K)) + ((q / 3) * (((m + 1 : Int) : K) * (q * s / 2)))))
      ↔ 3 * v < -u + 3 * (k : K) + ((m : K) + 1) / 2 := by
  have e : -(q / 3) * (q * s * u)
        + ((3 * s * (k : K)) + ((q / 3) * (((m + 1 : Int) : K) * (q * s / 2))))
      = s * (-u + 3 * (k : K) + ((m : K) + 1) / 2) := by
    push_cast
    linear_combination (-(s * u) / 3 + ((m : K) + 1) * s / 6) * hq3
  rw [e, mul_assoc, mul_comm s v, ← mul_assoc, mul_comm (3 * v) s]
  exact mul_lt_mul_left hs

theorem test_case0_odd (q s u v : K) (k m : Int) (hq3 : q * q = 3) (hs : 0 < s) :
    (3 * s * v < (q / 3) * (q * s * u)
        + ((3 * s * (k : K)) - ((q / 3) * ((m : K) * (q * s / 2)))))
      ↔ 3 * v < u + 3 * (k : K) - (m : K) / 2 := by
  have e : (q / 3) * (q * s * u)
        + ((3 * s * (k : K)) - ((q / 3) * ((m : K) * (q * s / 2))))
      = s * (u + 3 * (k : K) - (m : K) / 2) := by
    linear_combination ((s * u) / 3 - (m : K) * s / 6) * hq3
  rw [e, mul_assoc, mul_comm s v, ← mul_assoc, mul_comm (3 * v) s]
  exact mul_lt_mul_left hs

theorem test_case3_even (q s u v : K) (k m : Int) (hq3 : q * q = 3) (hs : 0 < s) :
    (3 * s * v > (q / 3) * (q * s * u)
        + (s * (3 * (k : K) + 2) - (q / 3) * ((q * s / 2) * ((m + 1 : Int) : K))))
      ↔ 3 * v > u + 3 * (k : K) + 2 - ((m : K) + 1) / 2 := by
  have e : (q / 3) * (q * s * u)
        + (s * (3 * (k : K) + 2) - (q / 3) * ((q * s / 2) * ((m + 1 : Int) : K)))
      = s * (u + 3 * (k : K) + 2 - ((m : K) + 1) / 2) := by
    push_cast
    linear_combination ((s * u) / 3 - ((m : K) + 1) * s / 6) * hq3
  rw [e, mul_assoc, mul_comm s v, ← mul_assoc, mul_comm (3 * v) s]
  exact mul_lt_mul_left hs

theorem test_case3_odd (q s u v : K) (k m : Int) (hq3 : q * q = 3) (hs : 0 < s) :
    (3 * s * v > -(q / 3) * (q * s * u)
        + (s * (3 * (k : K) + 2) + ((q / 3) * ((q * s / 2) * (m : K)))))
      ↔ 3 * v > -u + 3 * (k : K) + 2 + (m : K) / 2 := by
  have e : -(q / 3) * (q * s * u)
        + (s * (3 * (k : K) + 2) + ((q / 3) * ((q * s / 2) * (m : K))))
      = s * (-u + 3 * (k : K) + 2 + (m : K) / 2) := by
    linear_combination (-(s * u) / 3 + (m : K) * s / 6) * hq3
  rw [e, mul_assoc, mul_comm s v, ← mul_assoc, mul_comm (3 * v) s]
  exact mul_lt_mul_left hs

/-- The `switch` statement on a point given in dimensionless coordinates. -/
theorem getPixelIndex_scaled (q s u v : K) (hq : 0 < q) (hq3 : q * q = 3) (hs : 0 < s) :
    getPixelIndex q (q * s) (q * s * u - q * s / 2) (3 * s * v - s) = unitIndex u v := by
  have hq0 : q ≠ 0 := ne_of_gt hq
  have hs0 : s ≠ 0 := ne_of_gt hs
  have hside : side q (q * s) = s := by unfold side; field_simp
  have hmr : minor_radius (q * s) = q * s / 2 := rfl
  have hposx : posx (q * s) (q * s * u - q * s / 2) = q * s * u := by
    unfold posx minor_radius; ring
  have hposy : posy q (q * s) (3 * s * v - s) = 3 * s * v := by
    unfold posy; rw [hside]; ring
  have hv : 3 * s * v / (3 * s) = v := by field_simp
  have hxm : x_modulus (q * s) (q * s * u - q * s / 2) = Int.floor (2 * u) := by
    unfold x_modulus; rw [hposx, hmr]; congr 1; field_simp; ring
  have hym : y_modulus q (q * s) (3 * s * v - s)
      = Int.floor ((v - (Int.floor v : K)) * 6) := by
    unfold y_modulus; rw [hposy, hside, hv]
  have hxp : xpixel (q * s) (q * s * u - q * s / 2) = Int.ceil u := by
    unfold xpixel; rw [hposx]; congr 1; field_simp
  have hyp : ypixel q (q * s) (3 * s * v - s) = 2 * Int.floor v + 1 := by
    unfold ypixel; rw [hposy, hside, hv]
  unfold getPixelIndex unitIndex unitSwitch switchStmt offset_case0_even offset_case0_odd
    offset_case3_even offset_case3_odd
  rw [hside, hmr, hposx, hposy, hxm, hym, hxp, hyp, hv]
  simp only [tmod_two_eq_zero_iff, tmod_two_odd_iff, test_case0_even _ _ _ _ _ _ hq3 hs,
    test_case0_odd _ _ _ _ _ _ hq3 hs, test_case3_even _ _ _ _ _ _ hq3 hs,
    test_case3_odd _ _ _ _ _ _ hq3 hs]

/-- Under exact arithmetic with `sqrt3 * sqrt3 = 3` and a positive pitch the
code computes `unitIndex` of `u = posx / pixelsize`, `v = posy / (3 * side)`. -/
theorem getPixelIndex_eq_unitIndex (q p x y : K) (hq : 0 < q) (hq3 : q * q = 3)
    (hp : 0 < p) :
    getPixelIndex q p x y
      = unitIndex (posx p x / p) (posy q p y / (3 * side q p)) := by
  have hq0 : q ≠ 0 := ne_of_gt hq
  have hp0 : p ≠ 0 := ne_of_gt hp
  have hs : 0 < p / q := div_pos hp hq
  have hs0 : p / q ≠ 0 := ne_of_gt hs
  have h := getPixelIndex_scaled q (p / q) (posx p x / p)
    (posy q p y / (3 * side q p)) hq hq3 hs
  have e1 : q * (p / q) = p := by field_simp
  have e2 : p * (posx p x / p) - p / 2 = x := by
    unfold posx minor_radius; field_simp; ring
  have e3 : 3 * (p / q) * (posy q p y / (3 * side q p)) - p / q = y := by
    unfold posy side; field_simp; ring
  rw [e1, e2, e3] at h
  exact h

/-! ## The band selector -/

theorem band_floor_range (v : K) :
    0 ≤ Int.floor ((v - (Int.floor v : K)) * 6)
      ∧ Int.floor ((v - (Int.floor v : K)) * 6) < 6 := by
  have h0 : (Int.floor v : K) ≤ v := Int.floor_le v
  have h1 : v < (Int.floor v : K) + 1 := Int.lt_floor_add_one v
  constructor
  · apply Int.floor_nonneg.mpr
    nlinarith
  · apply Int.floor_lt.mpr
    push_cast
    linarith

theorem y_modulus_nonneg_lt (q p y : K) :
    0 ≤ y_modulus q p y ∧ y_modulus q p y < 6 :=
  band_floor_range (posy q p y / (3 * side q p))

theorem switchLabel_ne_default_of_range (b : Int) (h0 : 0 ≤ b) (h6 : b < 6) :
    switchLabel (Int.tmod b 6) ≠ Label.default := by
  rw [Int.tmod_eq_of_lt h0 h6]
  have h : b = 0 ∨ b = 1 ∨ b = 2 ∨ b = 3 ∨ b = 4 ∨ b = 5 := by omega
  rcases h with h | h | h | h | h | h <;> subst h <;> decide

/-- The selector of the `switch` is one of 0..5 and jumps to the matching label. -/
theorem label_cases (v : K) :
    (Int.floor ((v - (Int.floor v : K)) * 6) = 0
        ∧ switchLabel (Int.tmod (Int.floor ((v - (Int.floor v : K)) * 6)) 6) = Label.case0)
    ∨ ((Int.floor ((v - (Int.floor v : K)) * 6) = 1
          ∨ Int.floor ((v - (Int.floor v : K)) * 6) = 2)
        ∧ switchLabel (Int.tmod (Int.floor ((v - (Int.floor v : K)) * 6)) 6) = Label.case1_2)
    ∨ (Int.floor ((v - (Int.floor v : K)) * 6) = 3
        ∧ switchLabel (Int.tmod (Int.floor ((v - (Int.floor v : K)) * 6)) 6) = Label.case3)
    ∨ ((Int.floor ((v - (Int.floor v : K)) * 6) = 4
          ∨ Int.floor ((v - (Int.floor v : K)) * 6) = 5)
        ∧ switchLabel (Int.tmod (Int.floor ((v - (Int.floor v : K)) * 6)) 6)
            = Label.case4_5) := by
  obtain ⟨h0, h6⟩ := band_floor_range v
  generalize Int.floor ((v - (Int.floor v : K)) * 6) = b at h0 h6
  have h : b = 0 ∨ b = 1 ∨ b = 2 ∨ b = 3 ∨ b = 4 ∨ b = 5 := by omega
  rcases h with h | h | h | h | h | h <;> subst h <;> decide

/-! ## Periodicity in dimensionless coordinates -/

theorem unitIndex_add_one_left (u v : K) :
    unitIndex (u + 1) v = ((unitIndex u v).1 + 1, (unitIndex u v).2) := by
  have hm : Int.floor (2 * (u + 1)) = Int.floor (2 * u) + 2 := by
    have : 2 * (u + 1) = 2 * u + ((2 : Int) : K) := by push_cast; ring
    rw [this, Int.floor_add_int]
  have hc : Int.ceil (u + 1) = Int.ceil u + 1 := Int.ceil_add_one u
  have hpar0 : (Int.floor (2 * u) + 2) % 2 = Int.floor (2 * u) % 2 := by omega
  unfold unitIndex unitSwitch
  simp only [hm, hc, hpar0]
  have e1 : -(u + 1) + 3 * (Int.floor v : K) + (((Int.floor (2 * u) + 2 : Int) : K) + 1) / 2
      = -u + 3 * (Int.floor v : K) + ((Int.floor (2 * u) : K) + 1) / 2 := by
    push_cast; ring
  have e2 : (u + 1) + 3 * (Int.floor v : K) - ((Int.floor (2 * u) + 2 : Int) : K) / 2
      = u + 3 * (Int.floor v : K) - (Int.floor (2 * u) : K) / 2 := by
    push_cast; ring
  have e3 : (u + 1) + 3 * (Int.floor v : K) + 2
        - (((Int.floor (2 * u) + 2 : Int) : K) + 1) / 2
      = u + 3 * (Int.floor v : K) + 2 - ((Int.floor (2 * u) : K) + 1) / 2 := by
    push_cast; ring
  have e4 : -(u + 1) + 3 * (Int.floor v : K) + 2 + ((Int.floor (2 * u) + 2 : Int) : K) / 2
      = -u + 3 * (Int.floor v : K) + 2 + (Int.floor (2 * u) : K) / 2 := by
    push_cast; ring
  rw [e1, e2, e3, e4]
  rcases label_cases v with ⟨_, hl⟩ | ⟨_, hl⟩ | ⟨_, hl⟩ | ⟨_, hl⟩ <;>
    simp only [hl] <;> (try split_ifs) <;> simp

theorem unitIndex_add_one_right (u v : K) :
    unitIndex u (v + 1) = ((unitIndex u v).1, (unitIndex u v).2 + 2) := by
  have hk : Int.floor (v + 1) = Int.floor v + 1 := Int.floor_add_one v
  have hb : (v + 1 - ((Int.floor v + 1 : Int) : K)) * 6 = (v - (Int.floor v : K)) * 6 := by
    push_cast; ring
  have t1 : ∀ m : Int, (3 * (v + 1) < -u + 3 * ((Int.floor v + 1 : Int) : K) + ((m : K) + 1) / 2)
      ↔ (3 * v < -u + 3 * (Int.floor v : K) + ((m : K) + 1) / 2) := by
    intro m; push_cast; constructor <;> intro h <;> linarith
  have t2 : ∀ m : Int, (3 * (v + 1) < u + 3 * ((Int.floor v + 1 : Int) : K) - (m : K) / 2)
      ↔ (3 * v < u + 3 * (Int.floor v : K) - (m : K) / 2) := by
    intro m; push_cast; constructor <;> intro h <;> linarith
  have t3 : ∀ m : Int,
      (3 * (v + 1) > u + 3 * ((Int.floor v + 1 : Int) : K) + 2 - ((m : K) + 1) / 2)
      ↔ (3 * v > u + 3 * (Int.floor v : K) + 2 - ((m : K) + 1) / 2) := by
    intro m; push_cast; constructor <;> intro h <;> linarith
  have t4 : ∀ m : Int, (3 * (v + 1) > -u + 3 * ((Int.floor v + 1 : Int) : K) + 2 + (m : K) / 2)
      ↔ (3 * v > -u + 3 * (Int.floor v : K) + 2 + (m : K) / 2) := by
    intro m; push_cast; constructor <;> intro h <;> linarith
  unfold unitIndex unitSwitch
  simp only [hk, hb, t1, t2, t3, t4]
  rcases label_cases v with ⟨_, hl⟩ | ⟨_, hl⟩ | ⟨_, hl⟩ | ⟨_, hl⟩ <;>
    simp only [hl] <;> (try split_ifs) <;> simp <;> omega

/-! ## Evaluating `unitIndex` from the integer parts -/

/-- Unfolding of `unitIndex` once the four integer parts are known. -/
theorem unitIndex_of_parts (u v : K) (m k b c : Int)
    (hm : Int.floor (2 * u) = m) (hk : Int.floor v = k)
    (hb : Int.floor ((v - (k : K)) * 6) = b) (hc : Int.ceil u = c) :
    unitIndex u v = ((unitSwitch u v m k b c).1 - 1, (unitSwitch u v m k b c).2 - 1) := by
  subst hm hk hc
  subst hb
  rfl

theorem unitIndex_half_third : unitIndex (1 / 2 : K) (1 / 3 : K) = (0, 0) := by
  have hm : Int.floor (2 * (1 / 2 : K)) = 1 := by
    rw [Int.floor_eq_iff]; norm_num
  have hk : Int.floor (1 / 3 : K) = 0 := by
    rw [Int.floor_eq_iff]; norm_num
  have hb : Int.floor (((1 / 3 : K) - ((0 : Int) : K)) * 6) = 2 := by
    rw [Int.floor_eq_iff]; norm_num
  have hc : Int.ceil (1 / 2 : K) = 1 := by
    rw [Int.ceil_eq_iff]; norm_num
  rw [unitIndex_of_parts _ _ 1 0 2 1 hm hk hb hc]
  rfl

/-! ## Interior of an even-row hexagon, in dimensionless coordinates -/

theorem floor_two_mul_cases (u : K) (c : Int) (h1 : (c : K) < u) (h2 : u < (c : K) + 1) :
    (Int.floor (2 * u) = 2 * c ∧ 2 * u < 2 * (c : K) + 1)
      ∨ (Int.floor (2 * u) = 2 * c + 1 ∧ 2 * (c : K) + 1 ≤ 2 * u) := by
  rcases lt_or_le (2 * u) (2 * (c : K) + 1) with h | h
  · left
    refine ⟨?_, h⟩
    rw [Int.floor_eq_iff]; push_cast
    constructor <;> linarith
  · right
    refine ⟨?_, h⟩
    rw [Int.floor_eq_iff]; push_cast
    constructor <;> linarith

theorem unitIndex_even_interior (u v : K) (c k : Int)
    (hx : |u - 1 / 2 - (c : K)| < 1 / 2)
    (hy : |3 * v - 1 - 3 * (k : K)| + |u - 1 / 2 - (c : K)| < 1) :
    unitIndex u v = (c, 2 * k) := by
  have ax1 := le_abs_self (u - 1 / 2 - (c : K))
  have ax2 := neg_abs_le (u - 1 / 2 - (c : K))
  have ay1 := le_abs_self (3 * v - 1 - 3 * (k : K))
  have ay2 := neg_abs_le (3 * v - 1 - 3 * (k : K))
  have ax0 := abs_nonneg (u - 1 / 2 - (c : K))
  have hk : Int.floor v = k := by
    rw [Int.floor_eq_iff]; constructor <;> linarith
  have hc : Int.ceil u = c + 1 := by
    rw [Int.ceil_eq_iff]; push_cast; constructor <;> linarith
  have hbr := band_floor_range v
  have hb1 := Int.floor_le ((v - (Int.floor v : K)) * 6)
  have hb2 := Int.lt_floor_add_one ((v - (Int.floor v : K)) * 6)
  have hl := label_cases v
  rw [hk] at hbr hb1 hb2 hl
  rw [unitIndex_of_parts u v _ k _ (c + 1) rfl hk rfl hc]
  unfold unitSwitch
  generalize Int.floor ((v - (k : K)) * 6) = b at hbr hb1 hb2 hl
  rcases floor_two_mul_cases u c (by linarith) (by linarith) with ⟨hm, hmu⟩ | ⟨hm, hmu⟩
  · have hpar : (2 * c) % 2 = 0 := by omega
    rw [hm]
    rcases hl with ⟨hb, hl⟩ | ⟨hb, hl⟩ | ⟨hb, hl⟩ | ⟨hb, hl⟩
    · simp only [hl, hpar, if_true]
      rw [if_neg (by push_cast; linarith)]
      simp
    · simp only [hl]; simp
    · simp only [hl, hpar, if_true]
      rw [if_neg (by push_cast; linarith)]
      simp
    · exfalso
      have : (4 : K) ≤ (b : K) := by
        rcases hb with hb | hb <;> rw [hb] <;> norm_num
      linarith
  · have hpar : ¬ ((2 * c + 1) % 2 = 0) := by omega
    have hpar1 : (2 * c + 1) % 2 = 1 := by omega
    rw [hm]
    rcases hl with ⟨hb, hl⟩ | ⟨hb, hl⟩ | ⟨hb, hl⟩ | ⟨hb, hl⟩
    · simp only [hl]
      rw [if_neg hpar, if_pos hpar1]
      rw [if_neg (by push_cast; linarith)]
      simp
    · simp only [hl]; simp
    · simp only [hl]
      rw [if_neg hpar, if_pos hpar1]
      rw [if_neg (by push_cast; linarith)]
      simp
    · exfalso
      have : (4 : K) ≤ (b : K) := by
        rcases hb with hb | hb <;> rw [hb] <;> norm_num
      linarith

/-! ## Sample points in dimensionless coordinates -/

theorem unitIndex_even_centre (c k : Int) :
    unitIndex ((c : K) + 1 / 2) ((k : K) + 1 / 3) = (c, 2 * k) := by
  apply unitIndex_even_interior
  · have e : (c : K) + 1 / 2 - 1 / 2 - (c : K) = 0 := by ring
    rw [e, abs_zero]; norm_num
  · have e1 : (c : K) + 1 / 2 - 1 / 2 - (c : K) = 0 := by ring
    have e2 : 3 * ((k : K) + 1 / 3) - 1 - 3 * (k : K) = 0 := by ring
    rw [e1, e2, abs_zero]; norm_num

theorem unitIndex_odd_sample (c k : Int) :
    unitIndex ((c : K) + 3 / 4) ((k : K) + 5 / 6) = (c, 2 * k + 1) := by
  have hm : Int.floor (2 * ((c : K) + 3 / 4)) = 2 * c + 1 := by
    rw [Int.floor_eq_iff]; push_cast; constructor <;> linarith
  have hk : Int.floor ((k : K) + 5 / 6) = k := by
    rw [Int.floor_eq_iff]; constructor <;> linarith
  have hb : Int.floor (((k : K) + 5 / 6 - (k : K)) * 6) = 5 := by
    rw [Int.floor_eq_iff]; push_cast; constructor <;> linarith
  have hc : Int.ceil ((c : K) + 3 / 4) = c + 1 := by
    rw [Int.ceil_eq_iff]; push_cast; constructor <;> linarith
  have hl : switchLabel (Int.tmod 5 6) = Label.case4_5 := by decide
  have hpar : ¬ ((2 * c + 1) % 2 = 0) := by omega
  have hpar1 : (2 * c + 1) % 2 = 1 := by omega
  rw [unitIndex_of_parts _ _ _ _ _ _ hm hk hb hc]
  unfold unitSwitch
  simp only [hl]
  rw [if_neg hpar, if_pos hpar1]
  simp

/-- On the vertical line `posx / pixelsize = j` (an integer), in band 5. -/
theorem unitIndex_int_column (j : Int) : unitIndex (j : K) (5 / 6) = (j - 2, 1) := by
  have hm : Int.floor (2 * (j : K)) = 2 * j := by
    rw [Int.floor_eq_iff]; push_cast; constructor <;> linarith
  have hk : Int.floor (5 / 6 : K) = 0 := by
    rw [Int.floor_eq_iff]; norm_num
  have hb : Int.floor (((5 / 6 : K) - ((0 : Int) : K)) * 6) = 5 := by
    rw [Int.floor_eq_iff]; norm_num
  have hc : Int.ceil (j : K) = j := Int.ceil_intCast j
  have hl : switchLabel (Int.tmod 5 6) = Label.case4_5 := by decide
  have hpar : (2 * j) % 2 = 0 := by omega
  rw [unitIndex_of_parts _ _ _ _ _ _ hm hk hb hc]
  unfold unitSwitch
  simp only [hl]
  rw [if_pos hpar]
  simp
  omega

/-! ## Interior of an odd-row hexagon, off its vertical centre line -/

theorem unitIndex_odd_interior (u v : K) (c k : Int)
    (hx : |u - 1 - (c : K)| < 1 / 2) (hne : u ≠ (c : K) + 1)
    (hy : |3 * v - 1 - (3 / 2) * (2 * (k : K) + 1)| + |u - 1 - (c : K)| < 1) :
    unitIndex u v = (c, 2 * k + 1) := by
  have ax1 := le_abs_self (u - 1 - (c : K))
  have ax2 := neg_abs_le (u - 1 - (c : K))
  have ay1 := le_abs_self (3 * v - 1 - (3 / 2) * (2 * (k : K) + 1))
  have ay2 := neg_abs_le (3 * v - 1 - (3 / 2) * (2 * (k : K) + 1))
  have ax0 := abs_nonneg (u - 1 - (c : K))
  -- the column: left or right of the centre line
  have hcol : (Int.floor (2 * u) = 2 * c + 1 ∧ Int.ceil u = c + 1)
      ∨ (Int.floor (2 * u) = 2 * c + 2 ∧ Int.ceil u = c + 2) := by
    rcases lt_or_gt_of_ne hne with h | h
    · left
      constructor
      · rw [Int.floor_eq_iff]; push_cast; constructor <;> linarith
      · rw [Int.ceil_eq_iff]; push_cast; constructor <;> linarith
    · right
      constructor
      · rw [Int.floor_eq_iff]; push_cast; constructor <;> linarith
      · rw [Int.ceil_eq_iff]; push_cast; constructor <;> linarith
  have hpar1 : ¬ ((2 * c + 1) % 2 = 0) := by omega
  have hpar1' : (2 * c + 1) % 2 = 1 := by omega
  have hpar2 : (2 * c + 2) % 2 = 0 := by omega
  have hbr := band_floor_range v
  have hb1 := Int.floor_le ((v - (Int.floor v : K)) * 6)
  have hb2 := Int.lt_floor_add_one ((v - (Int.floor v : K)) * 6)
  have hl := label_cases v
  rcases lt_or_le v ((k : K) + 1) with hv | hv
  · -- bands 3, 4, 5 of period k
    have hk : Int.floor v = k := by
      rw [Int.floor_eq_iff]; constructor <;> linarith
    rw [hk] at hbr hb1 hb2 hl
    generalize hbdef : Int.floor ((v - (k : K)) * 6) = b at hbr hb1 hb2 hl
    have hb3 : (3 : K) < (b : K) + 1 := by linarith
    rcases hcol with ⟨hm, hc⟩ | ⟨hm, hc⟩
    · rw [unitIndex_of_parts u v _ k b _ hm hk hbdef hc]
      unfold unitSwitch
      rcases hl with ⟨hb, hl⟩ | ⟨hb, hl⟩ | ⟨hb, hl⟩ | ⟨hb, hl⟩
      · exfalso; rw [hb] at hb3; norm_num at hb3
      · exfalso; rcases hb with hb | hb <;> rw [hb] at hb3 <;> norm_num at hb3
      · simp only [hl]
        rw [if_neg hpar1, if_pos hpar1', if_pos (by push_cast; linarith)]
        simp
      · simp only [hl]
        rw [if_neg hpar1, if_pos hpar1']
        simp
    · rw [unitIndex_of_parts u v _ k b _ hm hk hbdef hc]
      unfold unitSwitch
      rcases hl with ⟨hb, hl⟩ | ⟨hb, hl⟩ | ⟨hb, hl⟩ | ⟨hb, hl⟩
      · exfalso; rw [hb] at hb3; norm_num at hb3
      · exfalso; rcases hb with hb | hb <;> rw [hb] at hb3 <;> norm_num at hb3
      · simp only [hl]
        rw [if_pos hpar2, if_pos (by push_cast; linarith)]
        simp
        omega
      · simp only [hl]
        rw [if_pos hpar2]
        simp
        omega
  · -- band 0 of period k + 1
    have hk : Int.floor v = k + 1 := by
      rw [Int.floor_eq_iff]; push_cast; constructor <;> linarith
    rw [hk] at hbr hb1 hb2 hl
    generalize hbdef : Int.floor ((v - ((k + 1 : Int) : K)) * 6) = b at hbr hb1 hb2 hl
    have hb0 : (b : K) < 1 := by push_cast at hb1; linarith
    rcases hcol with ⟨hm, hc⟩ | ⟨hm, hc⟩
    · rw [unitIndex_of_parts u v _ (k + 1) b _ hm hk hbdef hc]
      unfold unitSwitch
      rcases hl with ⟨hb, hl⟩ | ⟨hb, hl⟩ | ⟨hb, hl⟩ | ⟨hb, hl⟩
      · simp only [hl]
        rw [if_neg hpar1, if_pos hpar1', if_pos (by push_cast; linarith)]
        simp
        omega
      · exfalso; rcases hb with hb | hb <;> rw [hb] at hb0 <;> norm_num at hb0
      · exfalso; rw [hb] at hb0; norm_num at hb0
      · exfalso; rcases hb with hb | hb <;> rw [hb] at hb0 <;> norm_num at hb0
    · rw [unitIndex_of_parts u v _ (k + 1) b _ hm hk hbdef hc]
      unfold unitSwitch
      rcases hl with ⟨hb, hl⟩ | ⟨hb, hl⟩ | ⟨hb, hl⟩ | ⟨hb, hl⟩
      · simp only [hl]
        rw [if_pos hpar2, if_pos (by push_cast; linarith)]
        simp
        omega
      · exfalso; rcases hb with hb | hb <;> rw [hb] at hb0 <;> norm_num at hb0
      · exfalso; rw [hb] at hb0; norm_num at hb0
      · exfalso; rcases hb with hb | hb <;> rw [hb] at hb0 <;> norm_num at hb0

/-! ## Containment in the returned hexagon, off the lines `posx / pixelsize ∈ ℤ` -/

theorem abs_add_abs_le_of (a b c : K) (h1 : a + b ≤ c) (h2 : a - b ≤ c) (h3 : -a + b ≤ c)
    (h4 : -a - b ≤ c) : |a| + |b| ≤ c := by
  rcases abs_cases a with ⟨ha, _⟩ | ⟨ha, _⟩ <;> rcases abs_cases b with ⟨hb, _⟩ | ⟨hb, _⟩ <;>
    rw [ha, hb] <;> linarith

theorem inUnitHexagon_even_intro (u v : K) (c r k : Int) (hr : r = 2 * k)
    (hx1 : (c : K) ≤ u) (hx2 : u ≤ (c : K) + 1)
    (h1 : (3 * v - 1 - 3 * (k : K)) + (u - 1 / 2 - (c : K)) ≤ 1)
    (h2 : (3 * v - 1 - 3 * (k : K)) - (u - 1 / 2 - (c : K)) ≤ 1)
    (h3 : -(3 * v - 1 - 3 * (k : K)) + (u - 1 / 2 - (c : K)) ≤ 1)
    (h4 : -(3 * v - 1 - 3 * (k : K)) - (u - 1 / 2 - (c : K)) ≤ 1) :
    inUnitHexagon u v c r := by
  subst hr
  have hpar : (2 * k) % 2 = 0 := by omega
  unfold inUnitHexagon
  simp only [hpar, if_true]
  have e : (3 / 2 : K) * ((2 * k : Int) : K) = 3 * (k : K) := by push_cast; ring
  rw [e, sub_zero]
  exact ⟨abs_le.mpr ⟨by linarith, by linarith⟩, abs_add_abs_le_of _ _ _ h1 h2 h3 h4⟩

theorem inUnitHexagon_odd_intro (u v : K) (c r k : Int) (hr : r = 2 * k + 1)
    (hx1 : (c : K) + 1 / 2 ≤ u) (hx2 : u ≤ (c : K) + 3 / 2)
    (h1 : (3 * v - 5 / 2 - 3 * (k : K)) + (u - 1 - (c : K)) ≤ 1)
    (h2 : (3 * v - 5 / 2 - 3 * (k : K)) - (u - 1 - (c : K)) ≤ 1)
    (h3 : -(3 * v - 5 / 2 - 3 * (k : K)) + (u - 1 - (c : K)) ≤ 1)
    (h4 : -(3 * v - 5 / 2 - 3 * (k : K)) - (u - 1 - (c : K)) ≤ 1) :
    inUnitHexagon u v c r := by
  subst hr
  have hpar : ¬ ((2 * k + 1) % 2 = 0) := by omega
  unfold inUnitHexagon
  rw [if_neg hpar]
  have e : 3 * v - 1 - (3 / 2 : K) * ((2 * k + 1 : Int) : K) = 3 * v - 5 / 2 - 3 * (k : K) := by
    push_cast; ring
  have e2 : u - 1 / 2 - (c : K) - 1 / 2 = u - 1 - (c : K) := by ring
  rw [e, e2]
  exact ⟨abs_le.mpr ⟨by linarith, by linarith⟩, abs_add_abs_le_of _ _ _ h1 h2 h3 h4⟩

/-- The band of the `switch` as bounds on `6 * (v - floor v)`. -/
theorem band_cases (v : K) :
    bandBounds v (Int.floor v) (Int.floor ((v - (Int.floor v : K)) * 6)) := by
  have hb1 := Int.floor_le ((v - (Int.floor v : K)) * 6)
  have hb2 := Int.lt_floor_add_one ((v - (Int.floor v : K)) * 6)
  unfold bandBounds
  rcases label_cases v with ⟨hb, hl⟩ | ⟨hb | hb, hl⟩ | ⟨hb, hl⟩ | ⟨hb | hb, hl⟩ <;>
    rw [hb] at hb1 hb2 <;> push_cast at hb1 hb2
  · exact Or.inl ⟨hl, by linarith, by linarith⟩
  · exact Or.inr (Or.inl ⟨hl, by linarith, by linarith⟩)
  · exact Or.inr (Or.inl ⟨hl, by linarith, by linarith⟩)
  · exact Or.inr (Or.inr (Or.inl ⟨hl, by linarith, by linarith⟩))
  · exact Or.inr (Or.inr (Or.inr ⟨hl, by linarith, by linarith⟩))
  · exact Or.inr (Or.inr (Or.inr ⟨hl, by linarith, by linarith⟩))

theorem unitSwitch_even_in_hexagon (u v : K) (j k b : Int)
    (hk1 : (k : K) ≤ v) (hk2 : v < (k : K) + 1)
    (hj : (j : K) < u) (hm2 : 2 * u < 2 * (j : K) + 1) (hband : bandBounds v k b) :
    inUnitHexagon u v ((unitSwitch u v (2 * j) k b (j + 1)).1 - 1)
      ((unitSwitch u v (2 * j) k b (j + 1)).2 - 1) := by
  have hpar : (2 * j) % 2 = 0 := by omega
  unfold unitSwitch
  rcases hband with ⟨hl, hlo, hhi⟩ | ⟨hl, hlo, hhi⟩ | ⟨hl, hlo, hhi⟩ | ⟨hl, hlo, hhi⟩
  · simp only [hl]
    rw [if_pos hpar]
    split_ifs with ht <;> push_cast at ht <;> dsimp only
    · refine inUnitHexagon_odd_intro u v _ _ (k - 1) (by omega) ?_ ?_ ?_ ?_ ?_ ?_ <;>
        push_cast <;> linarith
    · refine inUnitHexagon_even_intro u v _ _ k (by omega) ?_ ?_ ?_ ?_ ?_ ?_ <;>
        push_cast <;> linarith
  · simp only [hl]
    refine inUnitHexagon_even_intro u v _ _ k (by omega) ?_ ?_ ?_ ?_ ?_ ?_ <;>
      push_cast <;> linarith
  · simp only [hl]
    rw [if_pos hpar]
    split_ifs with ht <;> push_cast at ht <;> dsimp only
    · refine inUnitHexagon_odd_intro u v _ _ k (by omega) ?_ ?_ ?_ ?_ ?_ ?_ <;>
        push_cast <;> linarith
    · refine inUnitHexagon_even_intro u v _ _ k (by omega) ?_ ?_ ?_ ?_ ?_ ?_ <;>
        push_cast <;> linarith
  · simp only [hl]
    rw [if_pos hpar]
    dsimp only
    refine inUnitHexagon_odd_intro u v _ _ k (by omega) ?_ ?_ ?_ ?_ ?_ ?_ <;>
      push_cast <;> linarith

theorem unitSwitch_odd_in_hexagon (u v : K) (j k b : Int)
    (hk1 : (k : K) ≤ v) (hk2 : v < (k : K) + 1)
    (hm1 : 2 * (j : K) + 1 ≤ 2 * u) (hm2 : 2 * u < 2 * (j : K) + 1 + 1)
    (hband : bandBounds v k b) :
    inUnitHexagon u v ((unitSwitch u v (2 * j + 1) k b (j + 1)).1 - 1)
      ((unitSwitch u v (2 * j + 1) k b (j + 1)).2 - 1) := by
  have hpar : (2 * j + 1) % 2 = 1 := by omega
  have hpar0 : ¬ ((2 * j + 1) % 2 = 0) := by omega
  unfold unitSwitch
  rcases hband with ⟨hl, hlo, hhi⟩ | ⟨hl, hlo, hhi⟩ | ⟨hl, hlo, hhi⟩ | ⟨hl, hlo, hhi⟩
  · simp only [hl]
    rw [if_neg hpar0, if_pos hpar]
    split_ifs with ht <;> push_cast at ht <;> dsimp only
    · refine inUnitHexagon_odd_intro u v _ _ (k - 1) (by omega) ?_ ?_ ?_ ?_ ?_ ?_ <;>
        push_cast <;> linarith
    · refine inUnitHexagon_even_intro u v _ _ k (by omega) ?_ ?_ ?_ ?_ ?_ ?_ <;>
        push_cast <;> linarith
  · simp only [hl]
    refine inUnitHexagon_even_intro u v _ _ k (by omega) ?_ ?_ ?_ ?_ ?_ ?_ <;>
      push_cast <;> linarith
  · simp only [hl]
    rw [if_neg hpar0, if_pos hpar]
    split_ifs with ht <;> push_cast at ht <;> dsimp only
    · refine inUnitHexagon_odd_intro u v _ _ k (by omega) ?_ ?_ ?_ ?_ ?_ ?_ <;>
        push_cast <;> linarith
    · refine inUnitHexagon_even_intro u v _ _ k (by omega) ?_ ?_ ?_ ?_ ?_ ?_ <;>
        push_cast <;> linarith
  · simp only [hl]
    rw [if_neg hpar0, if_pos hpar]
    dsimp only
    refine inUnitHexagon_odd_intro u v _ _ k (by omega) ?_ ?_ ?_ ?_ ?_ ?_ <;>
      push_cast <;> linarith

/-- Off the lines `u ∈ ℤ` the hexagon of the returned index contains the point. -/
theorem unitIndex_in_hexagon (u v : K) (hu : ∀ j : Int, u ≠ (j : K)) :
    inUnitHexagon u v (unitIndex u v).1 (unitIndex u v).2 := by
  have hk1 := Int.floor_le v
  have hk2 := Int.lt_floor_add_one v
  have hm1 := Int.floor_le (2 * u)
  have hm2 := Int.lt_floor_add_one (2 * u)
  have hband := band_cases v
  generalize hkdef : Int.floor v = k at hk1 hk2 hband
  generalize hbdef : Int.floor ((v - (k : K)) * 6) = b at hband
  generalize hmdef : Int.floor (2 * u) = m at hm1 hm2
  rcases Int.emod_two_eq m with hpar | hpar
  · obtain ⟨j, rfl⟩ : ∃ j, m = 2 * j := ⟨m / 2, by omega⟩
    push_cast at hm1 hm2
    have hj : (j : K) < u := lt_of_le_of_ne (by linarith) (Ne.symm (hu j))
    have hc : Int.ceil u = j + 1 := by
      rw [Int.ceil_eq_iff]; push_cast; constructor <;> linarith
    rw [unitIndex_of_parts u v _ k b _ hmdef hkdef hbdef hc]
    exact unitSwitch_even_in_hexagon u v j k b hk1 hk2 hj hm2 hband
  · obtain ⟨j, rfl⟩ : ∃ j, m = 2 * j + 1 := ⟨m / 2, by omega⟩
    push_cast at hm1 hm2
    have hc : Int.ceil u = j + 1 := by
      rw [Int.ceil_eq_iff]; push_cast; constructor <;> linarith
    rw [unitIndex_of_parts u v _ k b _ hmdef hkdef hbdef hc]
    exact unitSwitch_odd_in_hexagon u v j k b hk1 hk2 hm1 hm2 hband

/-! ## Exact real arithmetic: `sqrt3 = Real.sqrt 3` -/

theorem sqrt3_pos : 0 < Real.sqrt 3 := Real.sqrt_pos.mpr (by norm_num)

theorem sqrt3_mul_self : Real.sqrt 3 * Real.sqrt 3 = 3 :=
  Real.mul_self_sqrt (by norm_num)

theorem getPixelIndex_real (pitch x y : ℝ) (hp : 0 < pitch) :
    getPixelIndex (Real.sqrt 3) pitch x y
      = unitIndex (posx pitch x / pitch)
          (posy (Real.sqrt 3) pitch y / (3 * side (Real.sqrt 3) pitch)) :=
  getPixelIndex_eq_unitIndex _ _ _ _ sqrt3_pos sqrt3_mul_self hp

theorem side_real_pos (pitch : ℝ) (hp : 0 < pitch) : 0 < side (Real.sqrt 3) pitch :=
  div_pos hp sqrt3_pos

theorem side_real_eq (pitch : ℝ) : side (Real.sqrt 3) pitch = Real.sqrt 3 / 3 * pitch := by
  have hq0 : Real.sqrt 3 ≠ 0 := ne_of_gt sqrt3_pos
  unfold side
  field_simp
  linear_combination (-pitch) * sqrt3_mul_self

/-- The position whose dimensionless coordinates are `(u, v)`. -/
theorem getPixelIndex_at_unit (pitch u v : ℝ) (hp : 0 < pitch) :
    getPixelIndex (Real.sqrt 3) pitch (pitch * u - pitch / 2)
        (3 * side (Real.sqrt 3) pitch * v - side (Real.sqrt 3) pitch)
      = unitIndex u v := by
  have hp0 : pitch ≠ 0 := ne_of_gt hp
  have hs0 : side (Real.sqrt 3) pitch ≠ 0 := ne_of_gt (side_real_pos pitch hp)
  have e1 : posx pitch (pitch * u - pitch / 2) / pitch = u := by
    unfold posx minor_radius; field_simp
  have e2 : posy (Real.sqrt 3) pitch
        (3 * side (Real.sqrt 3) pitch * v - side (Real.sqrt 3) pitch)
        / (3 * side (Real.sqrt 3) pitch) = v := by
    unfold posy; field_simp
  rw [getPixelIndex_real _ _ _ hp, e1, e2]

/-- Whatever the pitch, the `switch` leaves one of the computed candidates. -/
theorem getPixelIndex_computed (q p x y : K) :
    ((getPixelIndex q p x y).1 = xpixel p x - 1 ∨ (getPixelIndex q p x y).1 = xpixel p x - 2)
      ∧ ((getPixelIndex q p x y).2 = ypixel q p y - 2
        ∨ (getPixelIndex q p x y).2 = ypixel q p y - 1
        ∨ (getPixelIndex q p x y).2 = ypixel q p y) := by
  unfold getPixelIndex switchStmt
  have hl := label_cases (posy q p y / (3 * side q p))
  have hy : y_modulus q p y
      = Int.floor ((posy q p y / (3 * side q p)
          - (Int.floor (posy q p y / (3 * side q p)) : K)) * 6) := rfl
  rw [← hy] at hl
  rcases hl with ⟨_, hl⟩ | ⟨_, hl⟩ | ⟨_, hl⟩ | ⟨_, hl⟩ <;>
    simp only [hl] <;> (try split_ifs) <;> simp <;> omega

theorem inHexagon_of_inUnitHexagon (pitch x y : ℝ) (c r : Int) (hp : 0 < pitch)
    (h : inUnitHexagon (posx pitch x / pitch)
      (posy (Real.sqrt 3) pitch y / (3 * side (Real.sqrt 3) pitch)) c r) :
    inHexagon (Real.sqrt 3) pitch x y c r := by
  have hq := sqrt3_pos
  have hq0 : Real.sqrt 3 ≠ 0 := ne_of_gt hq
  have hp0 : pitch ≠ 0 := ne_of_gt hp
  have hs := side_real_pos pitch hp
  have hs0 : side (Real.sqrt 3) pitch ≠ 0 := ne_of_gt hs
  unfold inUnitHexagon at h
  unfold inHexagon
  have ex : posx pitch x / pitch - 1 / 2 - (c : ℝ) - (if r % 2 = 0 then 0 else 1 / 2)
      = (x - ((c : ℝ) * pitch + (if r % 2 = 0 then 0 else pitch / 2))) / pitch := by
    unfold posx minor_radius
    split_ifs <;> field_simp <;> ring
  have ey : 3 * (posy (Real.sqrt 3) pitch y / (3 * side (Real.sqrt 3) pitch)) - 1
        - (3 / 2) * (r : ℝ)
      = (y - (3 / 2) * side (Real.sqrt 3) pitch * (r : ℝ)) / side (Real.sqrt 3) pitch := by
    unfold posy; field_simp; ring
  rw [ex, ey, abs_div, abs_div, abs_of_pos hp, abs_of_pos hs] at h
  obtain ⟨h1, h2⟩ := h
  dsimp only
  constructor
  · rw [div_le_iff₀ hp] at h1; linarith
  · have e : |y - (3 / 2) * side (Real.sqrt 3) pitch * (r : ℝ)| / side (Real.sqrt 3) pitch
          + |x - ((c : ℝ) * pitch + (if r % 2 = 0 then 0 else pitch / 2))| / pitch
        = (|y - (3 / 2) * side (Real.sqrt 3) pitch * (r : ℝ)|
            + |x - ((c : ℝ) * pitch + (if r % 2 = 0 then 0 else pitch / 2))| / Real.sqrt 3)
          / side (Real.sqrt 3) pitch := by
      rw [add_div]
      congr 1
      unfold side; field_simp
    rw [e, div_le_one hs] at h2
    exact h2

/-- Away from the defect the partition is right: for every pitch > 0 and every
position whose `posx / pitch` is not an integer, the closed hexagon of the index
returned by `getPixelIndex` contains the position. -/
theorem getPixelIndex_in_hexagon_off_lines (pitch x y : ℝ) (hp : 0 < pitch)
    (hx : ∀ j : Int, posx pitch x / pitch ≠ (j : ℝ)) :
    inHexagon (Real.sqrt 3) pitch x y (getPixelIndex (Real.sqrt 3) pitch x y).1
      (getPixelIndex (Real.sqrt 3) pitch x y).2 := by
  apply inHexagon_of_inUnitHexagon _ _ _ _ _ hp
  rw [getPixelIndex_real _ _ _ hp]
  exact unitIndex_in_hexagon _ _ hx

/-- Odd rows, away from the defect: for every pitch > 0, every column c and every
odd row r, a position strictly inside hexagon (c, r) that is not on the vertical
line through its centre is mapped by `getPixelIndex` to (c, r). -/
theorem getPixelIndex_odd_row_off_centre (pitch x y : ℝ) (c r : Int) (hp : 0 < pitch)
    (hr : r % 2 = 1)
    (hx : |x - ((c : ℝ) * pitch + pitch / 2)| < pitch / 2)
    (hne : x ≠ (c : ℝ) * pitch + pitch / 2)
    (hy : |y - (3 / 2) * side (Real.sqrt 3) pitch * (r : ℝ)|
        + |x - ((c : ℝ) * pitch + pitch / 2)| / Real.sqrt 3 < side (Real.sqrt 3) pitch) :
    getPixelIndex (Real.sqrt 3) pitch x y = (c, r) := by
  obtain ⟨k, rfl⟩ : ∃ k, r = 2 * k + 1 := ⟨r / 2, by omega⟩
  have hq := sqrt3_pos
  have hq0 : Real.sqrt 3 ≠ 0 := ne_of_gt hq
  have hp0 : pitch ≠ 0 := ne_of_gt hp
  have hs := side_real_pos pitch hp
  have hs0 : side (Real.sqrt 3) pitch ≠ 0 := ne_of_gt hs
  have ex : posx pitch x / pitch - 1 - (c : ℝ)
      = (x - ((c : ℝ) * pitch + pitch / 2)) / pitch := by
    unfold posx minor_radius; field_simp; ring
  have ey : 3 * (posy (Real.sqrt 3) pitch y / (3 * side (Real.sqrt 3) pitch)) - 1
        - (3 / 2) * (2 * (k : ℝ) + 1)
      = (y - (3 / 2) * side (Real.sqrt 3) pitch * ((2 * k + 1 : Int) : ℝ))
          / side (Real.sqrt 3) pitch := by
    unfold posy; push_cast; field_simp; ring
  have hx' : |x - ((c : ℝ) * pitch + pitch / 2)| / pitch < 1 / 2 := by
    rw [div_lt_iff₀ hp]; linarith
  have hy' : |y - (3 / 2) * side (Real.sqrt 3) pitch * ((2 * k + 1 : Int) : ℝ)|
        / side (Real.sqrt 3) pitch + |x - ((c : ℝ) * pitch + pitch / 2)| / pitch < 1 := by
    have e : |y - (3 / 2) * side (Real.sqrt 3) pitch * ((2 * k + 1 : Int) : ℝ)|
          / side (Real.sqrt 3) pitch + |x - ((c : ℝ) * pitch + pitch / 2)| / pitch
        = (|y - (3 / 2) * side (Real.sqrt 3) pitch * ((2 * k + 1 : Int) : ℝ)|
            + |x - ((c : ℝ) * pitch + pitch / 2)| / Real.sqrt 3)
          / side (Real.sqrt 3) pitch := by
      rw [add_div]
      congr 1
      unfold side; field_simp
    rw [e, div_lt_one hs]; exact hy
  have hne' : posx pitch x / pitch ≠ (c : ℝ) + 1 := by
    intro h
    apply hne
    have h2 : posx pitch x = ((c : ℝ) + 1) * pitch := by
      rw [← h]; field_simp
    unfold posx minor_radius at h2
    linarith
  rw [getPixelIndex_real _ _ _ hp]
  apply unitIndex_odd_interior
  · rw [ex, abs_div, abs_of_pos hp]; exact hx'
  · exact hne'
  · rw [ex, ey, abs_div, abs_div, abs_of_pos hp, abs_of_pos hs]; exact hy'

/-! ## The local variables at the position with dimensionless coordinates `(u, v)` -/

theorem sqrt3_div_three : Real.sqrt 3 / 3 = 1 / Real.sqrt 3 := by
  have hq0 : Real.sqrt 3 ≠ 0 := ne_of_gt sqrt3_pos
  field_simp

theorem posx_at_unit (pitch u : ℝ) : posx pitch (pitch * u - pitch / 2) = pitch * u := by
  unfold posx minor_radius; ring

theorem posy_at_unit (pitch v : ℝ) :
    posy (Real.sqrt 3) pitch (3 * side (Real.sqrt 3) pitch * v - side (Real.sqrt 3) pitch)
      = 3 * side (Real.sqrt 3) pitch * v := by
  unfold posy; ring

theorem period_at_unit (pitch v : ℝ) (hp : 0 < pitch) :
    posy (Real.sqrt 3) pitch (3 * side (Real.sqrt 3) pitch * v - side (Real.sqrt 3) pitch)
      / (3 * side (Real.sqrt 3) pitch) = v := by
  have hs0 : side (Real.sqrt 3) pitch ≠ 0 := ne_of_gt (side_real_pos pitch hp)
  rw [posy_at_unit]; field_simp

theorem x_modulus_at_unit (pitch u : ℝ) (hp : 0 < pitch) :
    x_modulus pitch (pitch * u - pitch / 2) = Int.floor (2 * u) := by
  have hp0 : pitch ≠ 0 := ne_of_gt hp
  unfold x_modulus
  rw [posx_at_unit]
  congr 1
  unfold minor_radius; field_simp; ring

theorem y_modulus_at_unit (pitch v : ℝ) (hp : 0 < pitch) :
    y_modulus (Real.sqrt 3) pitch
        (3 * side (Real.sqrt 3) pitch * v - side (Real.sqrt 3) pitch)
      = Int.floor ((v - (Int.floor v : ℝ)) * 6) := by
  unfold y_modulus
  rw [period_at_unit pitch v hp]

theorem xpixel_at_unit (pitch u : ℝ) (hp : 0 < pitch) :
    xpixel pitch (pitch * u - pitch / 2) = Int.ceil u := by
  have hp0 : pitch ≠ 0 := ne_of_gt hp
  unfold xpixel
  rw [posx_at_unit]
  congr 1
  field_simp

theorem ypixel_at_unit (pitch v : ℝ) (hp : 0 < pitch) :
    ypixel (Real.sqrt 3) pitch
        (3 * side (Real.sqrt 3) pitch * v - side (Real.sqrt 3) pitch)
      = 2 * Int.floor v + 1 := by
  unfold ypixel
  rw [period_at_unit pitch v hp]

/-! ## The two conditional bands, in the form the spec writes the tests -/

/-- Band 0 (`case 0`): the result of `getPixelIndex`, with the slope written
`1 / sqrt 3` and the offsets written out.  For even `x_modulus` the line has
slope `-1/sqrt 3`, for odd `x_modulus` slope `+1/sqrt 3`. -/
theorem getPixelIndex_case0 (pitch x y : ℝ)
    (hb : y_modulus (Real.sqrt 3) pitch y = 0) :
    (x_modulus pitch x % 2 = 0 →
        getPixelIndex (Real.sqrt 3) pitch x y
          = if posy (Real.sqrt 3) pitch y < -(1 / Real.sqrt 3) * posx pitch x
                + (3 * side (Real.sqrt 3) pitch
                    * (Int.floor (posy (Real.sqrt 3) pitch y
                        / (3 * side (Real.sqrt 3) pitch)) : ℝ)
                  + (1 / Real.sqrt 3) * ((x_modulus pitch x : ℝ) + 1) * (pitch / 2))
            then (xpixel pitch x - 1 - 1, ypixel (Real.sqrt 3) pitch y - 1 - 1)
            else (xpixel pitch x - 1, ypixel (Real.sqrt 3) pitch y - 1))
      ∧ (x_modulus pitch x % 2 = 1 →
        getPixelIndex (Real.sqrt 3) pitch x y
          = if posy (Real.sqrt 3) pitch y < (1 / Real.sqrt 3) * posx pitch x
                + (3 * side (Real.sqrt 3) pitch
                    * (Int.floor (posy (Real.sqrt 3) pitch y
                        / (3 * side (Real.sqrt 3) pitch)) : ℝ)
                  - (1 / Real.sqrt 3) * (x_modulus pitch x : ℝ) * (pitch / 2))
            then (xpixel pitch x - 1, ypixel (Real.sqrt 3) pitch y - 1 - 1)
            else (xpixel pitch x - 1, ypixel (Real.sqrt 3) pitch y - 1)) := by
  have hl : switchLabel (Int.tmod (y_modulus (Real.sqrt 3) pitch y) 6) = Label.case0 := by
    rw [hb]; decide
  constructor
  · intro hpar
    have ht : Int.tmod (x_modulus pitch x) 2 = 0 := (tmod_two_eq_zero_iff _).mpr hpar
    have e : -(Real.sqrt 3 / 3) * posx pitch x
          + offset_case0_even (Real.sqrt 3) (side (Real.sqrt 3) pitch) (minor_radius pitch)
              (posy (Real.sqrt 3) pitch y) (x_modulus pitch x)
        = -(1 / Real.sqrt 3) * posx pitch x
          + (3 * side (Real.sqrt 3) pitch
              * (Int.floor (posy (Real.sqrt 3) pitch y
                  / (3 * side (Real.sqrt 3) pitch)) : ℝ)
            + (1 / Real.sqrt 3) * ((x_modulus pitch x : ℝ) + 1) * (pitch / 2)) := by
      unfold offset_case0_even minor_radius
      rw [sqrt3_div_three]; push_cast; ring
    unfold getPixelIndex switchStmt
    simp only [hl]
    rw [if_pos ht, e]
    split_ifs <;> rfl
  · intro hpar
    have ht : Int.tmod (x_modulus pitch x) 2 = 1 ∨ Int.tmod (x_modulus pitch x) 2 = -1 :=
      (tmod_two_odd_iff _).mpr hpar
    have ht0 : ¬ Int.tmod (x_modulus pitch x) 2 = 0 := by
      rw [tmod_two_eq_zero_iff]; omega
    have e : (Real.sqrt 3 / 3) * posx pitch x
          + offset_case0_odd (Real.sqrt 3) (side (Real.sqrt 3) pitch) (minor_radius pitch)
              (posy (Real.sqrt 3) pitch y) (x_modulus pitch x)
        = (1 / Real.sqrt 3) * posx pitch x
          + (3 * side (Real.sqrt 3) pitch
              * (Int.floor (posy (Real.sqrt 3) pitch y
                  / (3 * side (Real.sqrt 3) pitch)) : ℝ)
            - (1 / Real.sqrt 3) * (x_modulus pitch x : ℝ) * (pitch / 2)) := by
      unfold offset_case0_odd minor_radius
      rw [sqrt3_div_three]; ring
    unfold getPixelIndex switchStmt
    simp only [hl]
    rw [if_neg ht0, if_pos ht, e]
    split_ifs <;> rfl

/-- Band 3 (`case 3`): the result of `getPixelIndex`, with the slope written
`1 / sqrt 3` and the offsets written out.  For even `x_modulus` the line has
slope `+1/sqrt 3`, for odd `x_modulus` slope `-1/sqrt 3`. -/
theorem getPixelIndex_case3 (pitch x y : ℝ)
    (hb : y_modulus (Real.sqrt 3) pitch y = 3) :
    (x_modulus pitch x % 2 = 0 →
        getPixelIndex (Real.sqrt 3) pitch x y
          = if posy (Real.sqrt 3) pitch y > (1 / Real.sqrt 3) * posx pitch x
                + (side (Real.sqrt 3) pitch
                    * (3 * (Int.floor (posy (Real.sqrt 3) pitch y
                        / (3 * side (Real.sqrt 3) pitch)) : ℝ) + 2)
                  - (1 / Real.sqrt 3) * (pitch / 2) * ((x_modulus pitch x : ℝ) + 1))
            then (xpixel pitch x - 1 - 1, ypixel (Real.sqrt 3) pitch y + 1 - 1)
            else (xpixel pitch x - 1, ypixel (Real.sqrt 3) pitch y - 1))
      ∧ (x_modulus pitch x % 2 = 1 →
        getPixelIndex (Real.sqrt 3) pitch x y
          = if posy (Real.sqrt 3) pitch y > -(1 / Real.sqrt 3) * posx pitch x
                + (side (Real.sqrt 3) pitch
                    * (3 * (Int.floor (posy (Real.sqrt 3) pitch y
                        / (3 * side (Real.sqrt 3) pitch)) : ℝ) + 2)
                  + (1 / Real.sqrt 3) * (pitch / 2) * (x_modulus pitch x : ℝ))
            then (xpixel pitch x - 1, ypixel (Real.sqrt 3) pitch y + 1 - 1)
            else (xpixel pitch x - 1, ypixel (Real.sqrt 3) pitch y - 1)) := by
  have hl : switchLabel (Int.tmod (y_modulus (Real.sqrt 3) pitch y) 6) = Label.case3 := by
    rw [hb]; decide
  constructor
  · intro hpar
    have ht : Int.tmod (x_modulus pitch x) 2 = 0 := (tmod_two_eq_zero_iff _).mpr hpar
    have e : (Real.sqrt 3 / 3) * posx pitch x
          + offset_case3_even (Real.sqrt 3) (side (Real.sqrt 3) pitch) (minor_radius pitch)
              (posy (Real.sqrt 3) pitch y) (x_modulus pitch x)
        = (1 / Real.sqrt 3) * posx pitch x
          + (side (Real.sqrt 3) pitch
              * (3 * (Int.floor (posy (Real.sqrt 3) pitch y
                  / (3 * side (Real.sqrt 3) pitch)) : ℝ) + 2)
            - (1 / Real.sqrt 3) * (pitch / 2) * ((x_modulus pitch x : ℝ) + 1)) := by
      unfold offset_case3_even minor_radius
      rw [sqrt3_div_three]; push_cast; ring
    unfold getPixelIndex switchStmt
    simp only [hl]
    rw [if_pos ht, e]
    split_ifs <;> rfl
  · intro hpar
    have ht : Int.tmod (x_modulus pitch x) 2 = 1 ∨ Int.tmod (x_modulus pitch x) 2 = -1 :=
      (tmod_two_odd_iff _).mpr hpar
    have ht0 : ¬ Int.tmod (x_modulus pitch x) 2 = 0 := by
      rw [tmod_two_eq_zero_iff]; omega
    have e : -(Real.sqrt 3 / 3) * posx pitch x
          + offset_case3_odd (Real.sqrt 3) (side (Real.sqrt 3) pitch) (minor_radius pitch)
              (posy (Real.sqrt 3) pitch y) (x_modulus pitch x)
        = -(1 / Real.sqrt 3) * posx pitch x
          + (side (Real.sqrt 3) pitch
              * (3 * (Int.floor (posy (Real.sqrt 3) pitch y
                  / (3 * side (Real.sqrt 3) pitch)) : ℝ) + 2)
            + (1 / Real.sqrt 3) * (pitch / 2) * (x_modulus pitch x : ℝ)) := by
      unfold offset_case3_odd minor_radius
      rw [sqrt3_div_three]; ring
    unfold getPixelIndex switchStmt
    simp only [hl]
    rw [if_neg ht0, if_pos ht, e]
    split_ifs <;> rfl

/-! ## `getGridSize` while the `unsigned int` products do not wrap

`((pixely_num - 1) / 2) * 3` and `(pixely_num / 2) * 3` stay below `2^32` exactly
for `pixely_num ≤ 2863311531`. -/

theorem getGridSize_width (q p : K) (c r : Nat) : (getGridSize q p c r).1 = (c : K) * p :=
  rfl

theorem getGridSize_height_odd_of_le (q p : K) (c r : Nat) (hodd : r % 2 = 1)
    (hr : r ≤ 2863311531) :
    (getGridSize q p c r).2.1 = (((r - 1) / 2 : Nat) : K) * 3 * (p / q) + 2 * (p / q) := by
  have hp32 : (2 : Nat) ^ 32 = 4294967296 := by norm_num
  have a1 : (r + 4294967296 - 1) % 4294967296 = r - 1 := by omega
  have a2 : ((r - 1) / 2 * 3) % 4294967296 = (r - 1) / 2 * 3 :=
    Nat.mod_eq_of_lt (by omega)
  have e1 : ((r + 2 ^ 32 - 1) % 2 ^ 32 / 2 * 3) % 2 ^ 32 = (r - 1) / 2 * 3 := by
    rw [hp32, a1, a2]
  unfold getGridSize
  simp only []
  rw [if_pos hodd, e1]
  push_cast
  ring

theorem getGridSize_height_even_of_le (q p : K) (c r : Nat) (heven : r % 2 = 0)
    (hr : r ≤ 2863311531) :
    (getGridSize q p c r).2.1 = ((r / 2 : Nat) : K) * 3 * (p / q) + (p / q) / 2 := by
  have hp32 : (2 : Nat) ^ 32 = 4294967296 := by norm_num
  have e1 : (r / 2 * 3) % 2 ^ 32 = r / 2 * 3 := by
    rw [hp32]
    exact Nat.mod_eq_of_lt (by omega)
  have hodd : ¬ r % 2 = 1 := by omega
  unfold getGridSize
  simp only []
  rw [if_neg hodd, if_pos heven, e1]
  push_cast
  ring

/-- Both parity branches give `side * (3 * rows + 1) / 2` while nothing wraps. -/
theorem getGridSize_height_closed_of_le (q p : K) (c r : Nat) (hr : r ≤ 2863311531) :
    (getGridSize q p c r).2.1 = (p / q) * (3 * (r : K) + 1) / 2 := by
  rcases Nat.mod_two_eq_zero_or_one r with h | h
  · rw [getGridSize_height_even_of_le q p c r h hr]
    obtain ⟨j, rfl⟩ : ∃ j, r = 2 * j := ⟨r / 2, by omega⟩
    have e : 2 * j / 2 = j := by omega
    rw [e]; push_cast; ring
  · rw [getGridSize_height_odd_of_le q p c r h hr]
    obtain ⟨j, rfl⟩ : ∃ j, r = 2 * j + 1 := ⟨r / 2, by omega⟩
    have e : (2 * j + 1 - 1) / 2 = j := by omega
    rw [e]; push_cast; ring

/-- Monotonicity in the rows while nothing wraps. -/
theorem getGridSize_height_mono_of_le (q p : K) (c r : Nat) (hq : 0 < q) (hp : 0 < p)
    (hr : r + 1 ≤ 2863311531) :
    (getGridSize q p c r).2.1 ≤ (getGridSize q p c (r + 1)).2.1 := by
  have hs : 0 < p / q := div_pos hp hq
  rw [getGridSize_height_closed_of_le q p c r (by omega),
    getGridSize_height_closed_of_le q p c (r + 1) hr]
  push_cast
  nlinarith

/-- Two more rows add `3 * side` while nothing wraps. -/
theorem getGridSize_height_add_two_of_le (q p : K) (c r : Nat) (hr : r + 2 ≤ 2863311531) :
    (getGridSize q p c (r + 2)).2.1 - (getGridSize q p c r).2.1 = 3 * (p / q) := by
  rw [getGridSize_height_closed_of_le q p c r (by omega),
    getGridSize_height_closed_of_le q p c (r + 2) hr]
  push_cast
  ring

/-- Monotonicity of the width in the columns. -/
theorem getGridSize_width_mono (q p : K) (c r : Nat) (hp : 0 < p) :
    (getGridSize q p c r).1 ≤ (getGridSize q p (c + 1) r).1 := by
  rw [getGridSize_width, getGridSize_width]
  push_cast
  nlinarith

/-- The spec's concrete scenarios 3 and 4: 3 columns, pitch 2, 1 row and 2 rows. -/
theorem getGridSize_scenarios :
    (getGridSize (Real.sqrt 3) 2 3 1).1 = 6
      ∧ (getGridSize (Real.sqrt 3) 2 3 1).2.1 = 2 * side (Real.sqrt 3) 2
      ∧ (getGridSize (Real.sqrt 3) 2 3 2).2.1 = (7 / 2) * side (Real.sqrt 3) 2 := by
  refine ⟨?_, ?_, ?_⟩
  · rw [getGridSize_width]; norm_num
  · rw [getGridSize_height_closed_of_le _ _ _ _ (by norm_num)]
    unfold side; push_cast; ring
  · rw [getGridSize_height_closed_of_le _ _ _ _ (by norm_num)]
    unfold side; push_cast; ring

/-! ## `getGridSize` where the `unsigned int` product wraps -/

/-- Odd row counts: the height with the `unsigned int` product reduced modulo
`2^32`, for every row count below `2^32`. -/
theorem getGridSize_height_odd (q p : K) (c r : Nat) (hodd : r % 2 = 1)
    (hr : r < 4294967296) :
    (getGridSize q p c r).2.1
      = ((((r - 1) / 2 * 3) % 4294967296 : Nat) : K) * (p / q) + 2 * (p / q) := by
  have hp32 : (2 : Nat) ^ 32 = 4294967296 := by norm_num
  have a1 : (r + 4294967296 - 1) % 4294967296 = r - 1 := by omega
  unfold getGridSize
  simp only []
  rw [if_pos hodd, hp32, a1]

/-- Even row counts: the height with the `unsigned int` product reduced modulo
`2^32`. -/
theorem getGridSize_height_even (q p : K) (c r : Nat) (heven : r % 2 = 0) :
    (getGridSize q p c r).2.1
      = (((r / 2 * 3) % 4294967296 : Nat) : K) * (p / q) + (p / q) / 2 := by
  have hp32 : (2 : Nat) ^ 32 = 4294967296 := by norm_num
  have hodd : ¬ r % 2 = 1 := by omega
  unfold getGridSize
  simp only []
  rw [if_neg hodd, if_pos heven, hp32]

/-! ## The `default` label and the `return` statement -/

theorem getPixelIndex_eq_switchReturn (q p x y : K) :
    getPixelIndex q p x y
      = switchReturn q (side q p) (minor_radius p) (posx p x) (posy q p y)
          (x_modulus p x) (y_modulus q p y) (xpixel p x) (ypixel q p y) :=
  rfl

/-- The `switch` jumps to `default` exactly for the selector values outside 0..5. -/
theorem switchLabel_eq_default_iff (sel : Int) :
    switchLabel sel = Label.default ↔ (sel < 0 ∨ 5 < sel) := by
  unfold switchLabel
  constructor
  · intro h
    split_ifs at h with h0 h12 h3 h45
    omega
  · intro h
    have h0 : ¬ sel = 0 := by omega
    have h12 : ¬ (sel = 1 ∨ sel = 2) := by omega
    have h3 : ¬ sel = 3 := by omega
    have h45 : ¬ (sel = 4 ∨ sel = 5) := by omega
    rw [if_neg h0, if_neg h12, if_neg h3, if_neg h45]

/-- After the `default` label the `return` statement still subtracts 1: whatever the
other locals, the function returns (-2, -2). -/
theorem switchReturn_default (q s mr px py : K) (xm ym xp yp : Int)
    (h : switchLabel (Int.tmod ym 6) = Label.default) :
    switchReturn q s mr px py xm ym xp yp = (-2, -2) := by
  unfold switchReturn switchStmt
  simp only [h]
  rfl

/-! ## The column as a function of `u`, off the lines `posx / pixelsize ∈ ℤ` -/

theorem unitSwitch_even_col (u v : K) (j k b : Int)
    (hj : (j : K) < u) (hm2 : 2 * u < 2 * (j : K) + 1) (hband : bandBounds v k b) :
    (unitSwitch u v (2 * j) k b (j + 1)).1 - 1 = Int.floor (u + colShift v k b) := by
  have hpar : (2 * j) % 2 = 0 := by omega
  unfold unitSwitch colShift
  rcases hband with ⟨hl, hlo, hhi⟩ | ⟨hl, hlo, hhi⟩ | ⟨hl, hlo, hhi⟩ | ⟨hl, hlo, hhi⟩
  · simp only [hl]
    rw [if_pos hpar]
    split_ifs with ht <;> push_cast at ht <;> dsimp only <;> symm <;>
      rw [Int.floor_eq_iff] <;> push_cast <;> constructor <;> linarith
  · simp only [hl]
    symm
    rw [Int.floor_eq_iff]; push_cast; constructor <;> linarith
  · simp only [hl]
    rw [if_pos hpar]
    split_ifs with ht <;> push_cast at ht <;> dsimp only <;> symm <;>
      rw [Int.floor_eq_iff] <;> push_cast <;> constructor <;> linarith
  · simp only [hl]
    rw [if_pos hpar]
    dsimp only
    symm
    rw [Int.floor_eq_iff]; push_cast; constructor <;> linarith

theorem unitSwitch_odd_col (u v : K) (j k b : Int)
    (hm1 : 2 * (j : K) + 1 ≤ 2 * u) (hm2 : 2 * u < 2 * (j : K) + 1 + 1)
    (hband : bandBounds v k b) :
    (unitSwitch u v (2 * j + 1) k b (j + 1)).1 - 1 = Int.floor (u + colShift v k b) := by
  have hpar : (2 * j + 1) % 2 = 1 := by omega
  have hpar0 : ¬ ((2 * j + 1) % 2 = 0) := by omega
  unfold unitSwitch colShift
  rcases hband with ⟨hl, hlo, hhi⟩ | ⟨hl, hlo, hhi⟩ | ⟨hl, hlo, hhi⟩ | ⟨hl, hlo, hhi⟩
  · simp only [hl]
    rw [if_neg hpar0, if_pos hpar]
    split_ifs with ht <;> dsimp only <;> symm <;>
      rw [Int.floor_eq_iff] <;> push_cast <;> constructor <;> linarith
  · simp only [hl]
    symm
    rw [Int.floor_eq_iff]; push_cast; constructor <;> linarith
  · simp only [hl]
    rw [if_neg hpar0, if_pos hpar]
    split_ifs with ht <;> dsimp only <;> symm <;>
      rw [Int.floor_eq_iff] <;> push_cast <;> constructor <;> linarith
  · simp only [hl]
    rw [if_neg hpar0, if_pos hpar]
    dsimp only
    symm
    rw [Int.floor_eq_iff]; push_cast; constructor <;> linarith

/-- Off the lines `u ∈ ℤ` the column is `floor (u + shift)` with a shift that
depends on `v` only. -/
theorem unitIndex_col_off_lines (u v : K) (hu : ∀ j : Int, u ≠ (j : K)) :
    (unitIndex u v).1
      = Int.floor (u + colShift v (Int.floor v) (Int.floor ((v - (Int.floor v : K)) * 6))) := by
  have hm1 := Int.floor_le (2 * u)
  have hm2 := Int.lt_floor_add_one (2 * u)
  have hband := band_cases v
  generalize hkdef : Int.floor v = k at hband
  generalize hbdef : Int.floor ((v - (k : K)) * 6) = b at hband
  generalize hmdef : Int.floor (2 * u) = m at hm1 hm2
  rcases Int.emod_two_eq m with hpar | hpar
  · obtain ⟨j, rfl⟩ : ∃ j, m = 2 * j := ⟨m / 2, by omega⟩
    push_cast at hm1 hm2
    have hj : (j : K) < u := lt_of_le_of_ne (by linarith) (Ne.symm (hu j))
    have hc : Int.ceil u = j + 1 := by
      rw [Int.ceil_eq_iff]; push_cast; constructor <;> linarith
    rw [unitIndex_of_parts u v _ k b _ hmdef hkdef hbdef hc]
    exact unitSwitch_even_col u v j k b hj hm2 hband
  · obtain ⟨j, rfl⟩ : ∃ j, m = 2 * j + 1 := ⟨m / 2, by omega⟩
    push_cast at hm1 hm2
    have hc : Int.ceil u = j + 1 := by
      rw [Int.ceil_eq_iff]; push_cast; constructor <;> linarith
    rw [unitIndex_of_parts u v _ k b _ hmdef hkdef hbdef hc]
    exact unitSwitch_odd_col u v j k b hm1 hm2 hband

theorem unitIndex_col_mono_off_lines (u1 u2 v : K) (h : u1 ≤ u2)
    (h1 : ∀ j : Int, u1 ≠ (j : K)) (h2 : ∀ j : Int, u2 ≠ (j : K)) :
    (unitIndex u1 v).1 ≤ (unitIndex u2 v).1 := by
  rw [unitIndex_col_off_lines u1 v h1, unitIndex_col_off_lines u2 v h2]
  exact Int.floor_le_floor (by linarith)

/-- Away from the defect the column is monotone: for every pitch > 0, every fixed
y and all `x1 ≤ x2` whose `posx / pitch` is not an integer, the column returned at
`x1` is at most the column returned at `x2`. -/
theorem getPixelIndex_column_mono_off_lines (pitch x1 x2 y : ℝ) (hp : 0 < pitch)
    (h : x1 ≤ x2) (h1 : ∀ j : Int, posx pitch x1 / pitch ≠ (j : ℝ))
    (h2 : ∀ j : Int, posx pitch x2 / pitch ≠ (j : ℝ)) :
    (getPixelIndex (Real.sqrt 3) pitch x1 y).1 ≤ (getPixelIndex (Real.sqrt 3) pitch x2 y).1 := by
  rw [getPixelIndex_real _ _ _ hp, getPixelIndex_real _ _ _ hp]
  apply unitIndex_col_mono_off_lines _ _ _ _ h1 h2
  unfold posx
  exact div_le_div_of_nonneg_right (by linarith) (le_of_lt hp)

/-- From 2863311532 rows on the `unsigned int` product wraps exactly once: the
returned height is the closed form `side * (3 * rows + 1) / 2` less `2^32 * side`. -/
theorem getGridSize_height_wrapped_of_gt (q p : K) (c r : Nat) (h1 : 2863311531 < r)
    (h2 : r < 4294967296) :
    (getGridSize q p c r).2.1 = (p / q) * (3 * (r : K) + 1) / 2 - 4294967296 * (p / q) := by
  rcases Nat.mod_two_eq_zero_or_one r with h | h
  · rw [getGridSize_height_even q p c r h]
    obtain ⟨j, rfl⟩ : ∃ j, r = 2 * j := ⟨r / 2, by omega⟩
    have e : (2 * j / 2 * 3) % 4294967296 + 4294967296 = 3 * j := by omega
    have e' : (((2 * j / 2 * 3) % 4294967296 : Nat) : K) + 4294967296 = 3 * (j : K) := by
      exact_mod_cast e
    have e'' : (((2 * j / 2 * 3) % 4294967296 : Nat) : K) = 3 * (j : K) - 4294967296 := by
      linarith
    rw [e'']; push_cast; ring
  · rw [getGridSize_height_odd q p c r h h2]
    obtain ⟨j, rfl⟩ : ∃ j, r = 2 * j + 1 := ⟨r / 2, by omega⟩
    have e : ((2 * j + 1 - 1) / 2 * 3) % 4294967296 + 4294967296 = 3 * j := by omega
    have e' : ((((2 * j + 1 - 1) / 2 * 3) % 4294967296 : Nat) : K) + 4294967296
        = 3 * (j : K) := by
      exact_mod_cast e
    have e'' : ((((2 * j + 1 - 1) / 2 * 3) % 4294967296 : Nat) : K)
        = 3 * (j : K) - 4294967296 := by
      linarith
    rw [e'']; push_cast; ring

/-! ## The claims, in the order of their ids -/

/-- C1 (the code departs from the claim). With pitch 1 the point
`(-1/2, 1.5*side)` is the centre of hexagon (-1, 1); `getPixelIndex` returns
(-2, 1), and the closed hexagon (-2, 1) does not contain the point. -/
theorem getPixelIndex_not_in_returned_hexagon :
    getPixelIndex (Real.sqrt 3) 1 (-1 / 2) ((3 / 2) * side (Real.sqrt 3) 1) = (-2, 1)
      ∧ ¬ inHexagon (Real.sqrt 3) 1 (-1 / 2) ((3 / 2) * side (Real.sqrt 3) 1) (-2) 1
      ∧ inHexagon (Real.sqrt 3) 1 (-1 / 2) ((3 / 2) * side (Real.sqrt 3) 1) (-1) 1 := by
  have hs := side_real_pos 1 (by norm_num)
  have h := getPixelIndex_at_unit 1 ((0 : Int) : ℝ) (5 / 6) (by norm_num)
  rw [unitIndex_int_column] at h
  have ex : (1 : ℝ) * ((0 : Int) : ℝ) - 1 / 2 = -1 / 2 := by norm_num
  have ey : 3 * side (Real.sqrt 3) 1 * (5 / 6) - side (Real.sqrt 3) 1
      = (3 / 2) * side (Real.sqrt 3) 1 := by ring
  rw [ex, ey] at h
  refine ⟨h, ?_, ?_⟩
  · unfold inHexagon
    norm_num
  · unfold inHexagon
    norm_num
    exact le_of_lt hs

/-- C2. Horizontal periodicity: for every pitch > 0 and every position (x, y),
`getPixelIndex (x + pitch, y) = (col + 1, row)` where
`(col, row) = getPixelIndex (x, y)`. -/
theorem getPixelIndex_add_pitch (pitch x y : ℝ) (hp : 0 < pitch) :
    getPixelIndex (Real.sqrt 3) pitch (x + pitch) y
      = ((getPixelIndex (Real.sqrt 3) pitch x y).1 + 1,
         (getPixelIndex (Real.sqrt 3) pitch x y).2) := by
  have hp0 : pitch ≠ 0 := ne_of_gt hp
  have e : posx pitch (x + pitch) / pitch = posx pitch x / pitch + 1 := by
    unfold posx; field_simp; ring
  rw [getPixelIndex_real _ _ _ hp, getPixelIndex_real _ _ _ hp, e, unitIndex_add_one_left]

/-- Witness of C2 at pitch 1, position (0, 0). -/
theorem getPixelIndex_add_pitch_witness :
    (0 : ℝ) < 1 ∧ getPixelIndex (Real.sqrt 3) 1 (0 + 1) 0
      = ((getPixelIndex (Real.sqrt 3) 1 0 0).1 + 1, (getPixelIndex (Real.sqrt 3) 1 0 0).2) :=
  ⟨by norm_num, getPixelIndex_add_pitch 1 0 0 (by norm_num)⟩

/-- C3. Vertical periodicity: for every pitch > 0 and every position (x, y), with
`side = pitch / sqrt 3`, `getPixelIndex (x, y + 3 * side) = (col, row + 2)` where
`(col, row) = getPixelIndex (x, y)`. -/
theorem getPixelIndex_add_three_side (pitch x y : ℝ) (hp : 0 < pitch) :
    getPixelIndex (Real.sqrt 3) pitch x (y + 3 * side (Real.sqrt 3) pitch)
      = ((getPixelIndex (Real.sqrt 3) pitch x y).1,
         (getPixelIndex (Real.sqrt 3) pitch x y).2 + 2) := by
  have hs0 : side (Real.sqrt 3) pitch ≠ 0 := ne_of_gt (side_real_pos pitch hp)
  have e : posy (Real.sqrt 3) pitch (y + 3 * side (Real.sqrt 3) pitch)
        / (3 * side (Real.sqrt 3) pitch)
      = posy (Real.sqrt 3) pitch y / (3 * side (Real.sqrt 3) pitch) + 1 := by
    unfold posy; field_simp; ring
  rw [getPixelIndex_real _ _ _ hp, getPixelIndex_real _ _ _ hp, e, unitIndex_add_one_right]

/-- Witness of C3 at pitch 1, position (0, 0). -/
theorem getPixelIndex_add_three_side_witness :
    (0 : ℝ) < 1 ∧ getPixelIndex (Real.sqrt 3) 1 0 (0 + 3 * side (Real.sqrt 3) 1)
      = ((getPixelIndex (Real.sqrt 3) 1 0 0).1, (getPixelIndex (Real.sqrt 3) 1 0 0).2 + 2) :=
  ⟨by norm_num, getPixelIndex_add_three_side 1 0 0 (by norm_num)⟩

/-- C4. For every pitch > 0 and every position (x, y) the band selector
`y_modulus` lies in {0, ..., 5}, and `switch (y_modulus % 6)` does not jump to the
`default` label. -/
theorem y_modulus_range (pitch y : ℝ) (_hp : 0 < pitch) :
    0 ≤ y_modulus (Real.sqrt 3) pitch y ∧ y_modulus (Real.sqrt 3) pitch y < 6
      ∧ switchLabel (Int.tmod (y_modulus (Real.sqrt 3) pitch y) 6) ≠ Label.default := by
  obtain ⟨h0, h6⟩ := y_modulus_nonneg_lt (Real.sqrt 3) pitch y
  exact ⟨h0, h6, switchLabel_ne_default_of_range _ h0 h6⟩

/-- Witness of C4 at pitch 1, position (0, 0). -/
theorem y_modulus_range_witness :
    (0 : ℝ) < 1 ∧ 0 ≤ y_modulus (Real.sqrt 3) 1 0 ∧ y_modulus (Real.sqrt 3) 1 0 < 6
      ∧ switchLabel (Int.tmod (y_modulus (Real.sqrt 3) 1 0) 6) ≠ Label.default :=
  ⟨by norm_num, y_modulus_range 1 0 (by norm_num)⟩

/-- C5 (counterexample). With the negative pitch -1 the call at the origin
reports no error: it returns the computed index (0, 0). -/
theorem getPixelIndex_negative_pitch :
    getPixelIndex (Real.sqrt 3) (-1) 0 0 = (0, 0) := by
  have hq := sqrt3_pos
  have hq0 : Real.sqrt 3 ≠ 0 := ne_of_gt hq
  have hv : posy (Real.sqrt 3) (-1) 0 / (3 * side (Real.sqrt 3) (-1)) = 1 / 3 := by
    unfold posy side; field_simp
  have hk : Int.floor (1 / 3 : ℝ) = 0 := by
    rw [Int.floor_eq_iff]; norm_num
  have hym : y_modulus (Real.sqrt 3) (-1) 0 = 2 := by
    unfold y_modulus
    rw [hv, hk, Int.floor_eq_iff]; norm_num
  have hxm : x_modulus (-1 : ℝ) 0 = 1 := by
    unfold x_modulus posx minor_radius
    rw [Int.floor_eq_iff]; norm_num
  have hxp : xpixel (-1 : ℝ) 0 = 1 := by
    unfold xpixel posx minor_radius
    rw [Int.ceil_eq_iff]; norm_num
  have hyp : ypixel (Real.sqrt 3) (-1) 0 = 1 := by
    unfold ypixel
    rw [hv, hk]; norm_num
  have hl : switchLabel (Int.tmod 2 6) = Label.case1_2 := by decide
  unfold getPixelIndex switchStmt
  rw [hym, hxm, hxp, hyp]
  simp only [hl]
  rfl

/-- C5 (amended). For every pitch < 0 and every position `getPixelIndex`
performs no precondition check and returns a computed index: the column is
`col_guess - 1` or `col_guess - 2` and the row is `row_guess - 2`,
`row_guess - 1` or `row_guess`, with `col_guess = ceil(posx/pitch)` and
`row_guess = 2*floor(posy/(3*side)) + 1`. -/
theorem getPixelIndex_no_pitch_check (pitch x y : ℝ) (_hp : pitch < 0) :
    ((getPixelIndex (Real.sqrt 3) pitch x y).1 = xpixel pitch x - 1
        ∨ (getPixelIndex (Real.sqrt 3) pitch x y).1 = xpixel pitch x - 2)
      ∧ ((getPixelIndex (Real.sqrt 3) pitch x y).2 = ypixel (Real.sqrt 3) pitch y - 2
        ∨ (getPixelIndex (Real.sqrt 3) pitch x y).2 = ypixel (Real.sqrt 3) pitch y - 1
        ∨ (getPixelIndex (Real.sqrt 3) pitch x y).2 = ypixel (Real.sqrt 3) pitch y) :=
  getPixelIndex_computed (Real.sqrt 3) pitch x y

/-- Witness of the amended C5 at pitch -1, position (0, 0). -/
theorem getPixelIndex_no_pitch_check_witness :
    (-1 : ℝ) < 0
      ∧ ((getPixelIndex (Real.sqrt 3) (-1) 0 0).1 = xpixel (-1 : ℝ) 0 - 1
        ∨ (getPixelIndex (Real.sqrt 3) (-1) 0 0).1 = xpixel (-1 : ℝ) 0 - 2)
      ∧ ((getPixelIndex (Real.sqrt 3) (-1) 0 0).2 = ypixel (Real.sqrt 3) (-1) 0 - 2
        ∨ (getPixelIndex (Real.sqrt 3) (-1) 0 0).2 = ypixel (Real.sqrt 3) (-1) 0 - 1
        ∨ (getPixelIndex (Real.sqrt 3) (-1) 0 0).2 = ypixel (Real.sqrt 3) (-1) 0) :=
  ⟨by norm_num, getPixelIndex_no_pitch_check (-1) 0 0 (by norm_num)⟩

/-- C6. `getPixelIndex` does not clamp: for every pitch > 0 and every pair of
integers (c, r), negative ones included, there is a position (x, y) for which
`getPixelIndex` returns exactly (c, r), and at that position the `switch`
does not jump to the `default` label. -/
theorem getPixelIndex_surjective (pitch : ℝ) (c r : Int) (hp : 0 < pitch) :
    ∃ x y : ℝ, getPixelIndex (Real.sqrt 3) pitch x y = (c, r)
      ∧ switchLabel (Int.tmod (y_modulus (Real.sqrt 3) pitch y) 6) ≠ Label.default := by
  have hnd : ∀ y : ℝ,
      switchLabel (Int.tmod (y_modulus (Real.sqrt 3) pitch y) 6) ≠ Label.default := by
    intro y
    obtain ⟨h0, h6⟩ := y_modulus_nonneg_lt (Real.sqrt 3) pitch y
    exact switchLabel_ne_default_of_range _ h0 h6
  rcases Int.emod_two_eq r with hr | hr
  · obtain ⟨k, rfl⟩ : ∃ k, r = 2 * k := ⟨r / 2, by omega⟩
    refine ⟨pitch * ((c : ℝ) + 1 / 2) - pitch / 2,
      3 * side (Real.sqrt 3) pitch * ((k : ℝ) + 1 / 3) - side (Real.sqrt 3) pitch,
      ?_, hnd _⟩
    rw [getPixelIndex_at_unit _ _ _ hp, unitIndex_even_centre]
  · obtain ⟨k, rfl⟩ : ∃ k, r = 2 * k + 1 := ⟨r / 2, by omega⟩
    refine ⟨pitch * ((c : ℝ) + 3 / 4) - pitch / 2,
      3 * side (Real.sqrt 3) pitch * ((k : ℝ) + 5 / 6) - side (Real.sqrt 3) pitch,
      ?_, hnd _⟩
    rw [getPixelIndex_at_unit _ _ _ hp, unitIndex_odd_sample]

/-- Witness of C6: pitch 1 and the index (-1, -1). -/
theorem getPixelIndex_surjective_witness :
    (0 : ℝ) < 1 ∧ ∃ x y : ℝ, getPixelIndex (Real.sqrt 3) 1 x y = (-1, -1)
      ∧ switchLabel (Int.tmod (y_modulus (Real.sqrt 3) 1 y) 6) ≠ Label.default :=
  ⟨by norm_num, getPixelIndex_surjective 1 (-1) (-1) (by norm_num)⟩

/-- C7. For every pitch > 0 the origin (0, 0) resolves to the index (0, 0). -/
theorem getPixelIndex_origin (pitch : ℝ) (hp : 0 < pitch) :
    getPixelIndex (Real.sqrt 3) pitch 0 0 = (0, 0) := by
  have hp0 : pitch ≠ 0 := ne_of_gt hp
  have hs0 : side (Real.sqrt 3) pitch ≠ 0 := ne_of_gt (side_real_pos pitch hp)
  have e1 : posx pitch 0 / pitch = 1 / 2 := by
    unfold posx minor_radius; field_simp; ring
  have e2 : posy (Real.sqrt 3) pitch 0 / (3 * side (Real.sqrt 3) pitch) = 1 / 3 := by
    unfold posy; field_simp; ring
  rw [getPixelIndex_real _ _ _ hp, e1, e2, unitIndex_half_third]

/-- Witness of C7 at pitch 1 (the spec's concrete scenario 1). -/
theorem getPixelIndex_origin_witness :
    (0 : ℝ) < 1 ∧ getPixelIndex (Real.sqrt 3) 1 0 0 = (0, 0) :=
  ⟨by norm_num, getPixelIndex_origin 1 (by norm_num)⟩

/-- C8. For every pitch > 0, every integer column c and every even integer row r,
every position strictly inside hexagon (c, r), i.e. `|x - c*pitch| < pitch/2` and
`|y - 1.5*side*r| + |x - c*pitch|/sqrt 3 < side`, is mapped by `getPixelIndex`
to exactly (c, r). -/
theorem getPixelIndex_even_row_interior (pitch x y : ℝ) (c r : Int) (hp : 0 < pitch)
    (hr : r % 2 = 0)
    (hx : |x - (c : ℝ) * pitch| < pitch / 2)
    (hy : |y - (3 / 2) * side (Real.sqrt 3) pitch * (r : ℝ)|
        + |x - (c : ℝ) * pitch| / Real.sqrt 3 < side (Real.sqrt 3) pitch) :
    getPixelIndex (Real.sqrt 3) pitch x y = (c, r) := by
  obtain ⟨k, rfl⟩ : ∃ k, r = 2 * k := ⟨r / 2, by omega⟩
  have hq := sqrt3_pos
  have hq0 : Real.sqrt 3 ≠ 0 := ne_of_gt hq
  have hp0 : pitch ≠ 0 := ne_of_gt hp
  have hs := side_real_pos pitch hp
  have hs0 : side (Real.sqrt 3) pitch ≠ 0 := ne_of_gt hs
  have ex : posx pitch x / pitch - 1 / 2 - (c : ℝ) = (x - (c : ℝ) * pitch) / pitch := by
    unfold posx minor_radius; field_simp; ring
  have ey : 3 * (posy (Real.sqrt 3) pitch y / (3 * side (Real.sqrt 3) pitch)) - 1
        - 3 * (k : ℝ)
      = (y - (3 / 2) * side (Real.sqrt 3) pitch * ((2 * k : Int) : ℝ))
          / side (Real.sqrt 3) pitch := by
    unfold posy; push_cast; field_simp; ring
  have hx' : |x - (c : ℝ) * pitch| / pitch < 1 / 2 := by
    rw [div_lt_iff₀ hp]; linarith
  have hy' : |y - (3 / 2) * side (Real.sqrt 3) pitch * ((2 * k : Int) : ℝ)|
        / side (Real.sqrt 3) pitch + |x - (c : ℝ) * pitch| / pitch < 1 := by
    have e : |y - (3 / 2) * side (Real.sqrt 3) pitch * ((2 * k : Int) : ℝ)|
          / side (Real.sqrt 3) pitch + |x - (c : ℝ) * pitch| / pitch
        = (|y - (3 / 2) * side (Real.sqrt 3) pitch * ((2 * k : Int) : ℝ)|
            + |x - (c : ℝ) * pitch| / Real.sqrt 3) / side (Real.sqrt 3) pitch := by
      rw [add_div]
      congr 1
      unfold side; field_simp
    rw [e, div_lt_one hs]; exact hy
  rw [getPixelIndex_real _ _ _ hp]
  apply unitIndex_even_interior
  · rw [ex, abs_div, abs_of_pos hp]; exact hx'
  · rw [ex, ey, abs_div, abs_div, abs_of_pos hp, abs_of_pos hs]; exact hy'

/-- Witness of C8: pitch 1, the point (1/4, 0) strictly inside hexagon (0, 0). -/
theorem getPixelIndex_even_row_interior_witness :
    (0 : ℝ) < 1 ∧ (0 : Int) % 2 = 0
      ∧ |(1 / 4 : ℝ) - ((0 : Int) : ℝ) * 1| < 1 / 2
      ∧ |(0 : ℝ) - (3 / 2) * side (Real.sqrt 3) 1 * ((0 : Int) : ℝ)|
          + |(1 / 4 : ℝ) - ((0 : Int) : ℝ) * 1| / Real.sqrt 3 < side (Real.sqrt 3) 1
      ∧ getPixelIndex (Real.sqrt 3) 1 (1 / 4) 0 = (0, 0) := by
  have hq := sqrt3_pos
  have hx : |(1 / 4 : ℝ) - ((0 : Int) : ℝ) * 1| < 1 / 2 := by
    norm_num [abs_of_pos]
  have hy : |(0 : ℝ) - (3 / 2) * side (Real.sqrt 3) 1 * ((0 : Int) : ℝ)|
      + |(1 / 4 : ℝ) - ((0 : Int) : ℝ) * 1| / Real.sqrt 3 < side (Real.sqrt 3) 1 := by
    unfold side
    norm_num [abs_of_pos]
    rw [inv_eq_one_div]
    exact div_lt_div_of_pos_right (by norm_num) hq
  exact ⟨by norm_num, by decide, hx, hy,
    getPixelIndex_even_row_interior 1 (1 / 4) 0 0 0 (by norm_num) (by decide) hx hy⟩

/-- C9 (the code departs from the claim). With pitch 1 the centre
`(1/2, 1.5*side)` of the odd-row hexagon (0, 1) lies strictly inside that
hexagon, and `getPixelIndex` maps it to (-1, 1), not to (0, 1). -/
theorem getPixelIndex_odd_row_centre :
    (|(1 / 2 : ℝ) - ((0 : Int) * 1 + 1 / 2)| < 1 / 2
      ∧ |(3 / 2) * side (Real.sqrt 3) 1 - (3 / 2) * side (Real.sqrt 3) 1 * (1 : Int)|
          + |(1 / 2 : ℝ) - ((0 : Int) * 1 + 1 / 2)| / Real.sqrt 3 < side (Real.sqrt 3) 1)
      ∧ getPixelIndex (Real.sqrt 3) 1 (1 / 2) ((3 / 2) * side (Real.sqrt 3) 1) = (-1, 1)
      ∧ getPixelIndex (Real.sqrt 3) 1 (1 / 2) ((3 / 2) * side (Real.sqrt 3) 1) ≠ (0, 1) := by
  have hs := side_real_pos 1 (by norm_num)
  have h := getPixelIndex_at_unit 1 ((1 : Int) : ℝ) (5 / 6) (by norm_num)
  rw [unitIndex_int_column] at h
  have ex : (1 : ℝ) * ((1 : Int) : ℝ) - 1 / 2 = 1 / 2 := by norm_num
  have ey : 3 * side (Real.sqrt 3) 1 * (5 / 6) - side (Real.sqrt 3) 1
      = (3 / 2) * side (Real.sqrt 3) 1 := by ring
  rw [ex, ey] at h
  refine ⟨⟨by norm_num, ?_⟩, h, ?_⟩
  · norm_num
    exact hs
  · rw [h]; decide

/-- C10. The tie-break is one-sided: for every pitch > 0 and every position lying
exactly on the line of one of the four conditional half-plane tests (band 0 or
band 3, `x_modulus` even or odd), equality does not trigger the correction and
`getPixelIndex` returns the uncorrected `(col_guess - 1, row_guess - 1)`. -/
theorem getPixelIndex_on_boundary_line (pitch x y : ℝ) (_hp : 0 < pitch)
    (h : onBoundaryLine (Real.sqrt 3) pitch x y) :
    getPixelIndex (Real.sqrt 3) pitch x y
      = (xpixel pitch x - 1, ypixel (Real.sqrt 3) pitch y - 1) := by
  have hl0 : switchLabel 0 = Label.case0 := by decide
  have hl3 : switchLabel 3 = Label.case3 := by decide
  unfold getPixelIndex switchStmt
  rcases h with ⟨hb, hpar, heq⟩ | ⟨hb, hpar, heq⟩ | ⟨hb, hpar, heq⟩ | ⟨hb, hpar, heq⟩
  · rw [hb]
    simp only [hl0]
    rw [if_pos hpar, if_neg (not_lt.mpr (le_of_eq heq.symm))]
  · have hne : ¬ Int.tmod (x_modulus pitch x) 2 = 0 := by omega
    rw [hb]
    simp only [hl0]
    rw [if_neg hne, if_pos hpar, if_neg (not_lt.mpr (le_of_eq heq.symm))]
  · rw [hb]
    simp only [hl3]
    rw [if_pos hpar, if_neg (not_lt.mpr (le_of_eq heq))]
  · have hne : ¬ Int.tmod (x_modulus pitch x) 2 = 0 := by omega
    rw [hb]
    simp only [hl3]
    rw [if_neg hne, if_pos hpar, if_neg (not_lt.mpr (le_of_eq heq))]

/-- Witness of C10 (the spec's concrete scenario 2): pitch 1, band 0, `x_modulus`
even, the point `(-1/4, -0.75*side)` on the line of the first test; the result
is the uncorrected index, here (0, 0). -/
theorem getPixelIndex_on_boundary_line_witness :
    (0 : ℝ) < 1
      ∧ onBoundaryLine (Real.sqrt 3) 1 (-1 / 4) (-(3 / 4) * side (Real.sqrt 3) 1)
      ∧ getPixelIndex (Real.sqrt 3) 1 (-1 / 4) (-(3 / 4) * side (Real.sqrt 3) 1)
          = (xpixel (1 : ℝ) (-1 / 4) - 1,
             ypixel (Real.sqrt 3) 1 (-(3 / 4) * side (Real.sqrt 3) 1) - 1)
      ∧ (xpixel (1 : ℝ) (-1 / 4) - 1,
          ypixel (Real.sqrt 3) 1 (-(3 / 4) * side (Real.sqrt 3) 1) - 1) = (0, 0) := by
  have hs0 : side (Real.sqrt 3) 1 ≠ 0 := ne_of_gt (side_real_pos 1 (by norm_num))
  have hv : posy (Real.sqrt 3) 1 (-(3 / 4) * side (Real.sqrt 3) 1)
      / (3 * side (Real.sqrt 3) 1) = 1 / 12 := by
    unfold posy; field_simp; ring
  have hk : Int.floor (1 / 12 : ℝ) = 0 := by
    rw [Int.floor_eq_iff]; norm_num
  have hym : y_modulus (Real.sqrt 3) 1 (-(3 / 4) * side (Real.sqrt 3) 1) = 0 := by
    unfold y_modulus
    rw [hv, hk, Int.floor_eq_iff]; norm_num
  have hxm : x_modulus (1 : ℝ) (-1 / 4) = 0 := by
    unfold x_modulus posx minor_radius
    rw [Int.floor_eq_iff]; norm_num
  have hxp : xpixel (1 : ℝ) (-1 / 4) = 1 := by
    unfold xpixel posx minor_radius
    rw [Int.ceil_eq_iff]; norm_num
  have hyp : ypixel (Real.sqrt 3) 1 (-(3 / 4) * side (Real.sqrt 3) 1) = 1 := by
    unfold ypixel
    rw [hv, hk]; norm_num
  have hline : onBoundaryLine (Real.sqrt 3) 1 (-1 / 4) (-(3 / 4) * side (Real.sqrt 3) 1) := by
    left
    refine ⟨by rw [hym]; decide, by rw [hxm]; decide, ?_⟩
    unfold offset_case0_even
    rw [hv, hk, hxm]
    unfold posy posx minor_radius
    rw [side_real_eq]
    push_cast
    ring
  refine ⟨by norm_num, hline, getPixelIndex_on_boundary_line 1 _ _ (by norm_num) hline, ?_⟩
  rw [hxp, hyp]
  rfl

/-- C11. For every pitch > 0 and every position whose `y_modulus` is 1 or 2 no
correction is applied: `getPixelIndex` returns
`(ceil(posx/pitch) - 1, 2*floor(posy/(3*side)))` with `posx = x + pitch/2`,
`posy = y + side` and `side = pitch / sqrt 3`. -/
theorem getPixelIndex_band_1_2 (pitch x y : ℝ) (_hp : 0 < pitch)
    (hb : y_modulus (Real.sqrt 3) pitch y = 1 ∨ y_modulus (Real.sqrt 3) pitch y = 2) :
    getPixelIndex (Real.sqrt 3) pitch x y
      = (Int.ceil ((x + pitch / 2) / pitch) - 1,
         2 * Int.floor ((y + pitch / Real.sqrt 3) / (3 * (pitch / Real.sqrt 3)))) := by
  have hl : switchLabel (Int.tmod (y_modulus (Real.sqrt 3) pitch y) 6) = Label.case1_2 := by
    rcases hb with hb | hb <;> rw [hb] <;> decide
  have hxp : xpixel pitch x = Int.ceil ((x + pitch / 2) / pitch) := rfl
  have hyp : ypixel (Real.sqrt 3) pitch y
      = 2 * Int.floor ((y + pitch / Real.sqrt 3) / (3 * (pitch / Real.sqrt 3))) + 1 := rfl
  unfold getPixelIndex switchStmt
  simp only [hl]
  rw [hxp, hyp]
  simp

/-- Witness of C11: pitch 1 at the origin, where `y_modulus = 2`; the index is (0, 0). -/
theorem getPixelIndex_band_1_2_witness :
    (0 : ℝ) < 1
      ∧ (y_modulus (Real.sqrt 3) 1 0 = 1 ∨ y_modulus (Real.sqrt 3) 1 0 = 2)
      ∧ getPixelIndex (Real.sqrt 3) 1 0 0
          = (Int.ceil (((0 : ℝ) + 1 / 2) / 1) - 1,
             2 * Int.floor (((0 : ℝ) + 1 / Real.sqrt 3) / (3 * (1 / Real.sqrt 3)))) := by
  have hq0 : Real.sqrt 3 ≠ 0 := ne_of_gt sqrt3_pos
  have hv : posy (Real.sqrt 3) 1 0 / (3 * side (Real.sqrt 3) 1) = 1 / 3 := by
    unfold posy side; field_simp
  have hk : Int.floor (1 / 3 : ℝ) = 0 := by
    rw [Int.floor_eq_iff]; norm_num
  have hym : y_modulus (Real.sqrt 3) 1 0 = 2 := by
    unfold y_modulus
    rw [hv, hk, Int.floor_eq_iff]; norm_num
  exact ⟨by norm_num, Or.inr hym,
    getPixelIndex_band_1_2 1 0 0 (by norm_num) (Or.inr hym)⟩

/-- C12. For every pitch > 0 and every position whose `y_modulus` is 4 or 5 the
correction is unconditional for every integer `x_modulus`, negative ones
included: `getPixelIndex` returns `(col_guess - 2, row_guess)` when `x_modulus`
is even and `(col_guess - 1, row_guess)` when it is odd, with
`col_guess = ceil(posx/pitch)` and `row_guess = 2*floor(posy/(3*side)) + 1`. -/
theorem getPixelIndex_band_4_5 (pitch x y : ℝ) (_hp : 0 < pitch)
    (hb : y_modulus (Real.sqrt 3) pitch y = 4 ∨ y_modulus (Real.sqrt 3) pitch y = 5) :
    (x_modulus pitch x % 2 = 0 →
        getPixelIndex (Real.sqrt 3) pitch x y
          = (Int.ceil ((x + pitch / 2) / pitch) - 2,
             2 * Int.floor ((y + pitch / Real.sqrt 3) / (3 * (pitch / Real.sqrt 3))) + 1))
      ∧ (x_modulus pitch x % 2 = 1 →
        getPixelIndex (Real.sqrt 3) pitch x y
          = (Int.ceil ((x + pitch / 2) / pitch) - 1,
             2 * Int.floor ((y + pitch / Real.sqrt 3) / (3 * (pitch / Real.sqrt 3))) + 1))
      ∧ (x_modulus pitch x % 2 = 0 ∨ x_modulus pitch x % 2 = 1) := by
  have hl : switchLabel (Int.tmod (y_modulus (Real.sqrt 3) pitch y) 6) = Label.case4_5 := by
    rcases hb with hb | hb <;> rw [hb] <;> decide
  have hxp : xpixel pitch x = Int.ceil ((x + pitch / 2) / pitch) := rfl
  have hyp : ypixel (Real.sqrt 3) pitch y
      = 2 * Int.floor ((y + pitch / Real.sqrt 3) / (3 * (pitch / Real.sqrt 3))) + 1 := rfl
  refine ⟨?_, ?_, Int.emod_two_eq _⟩
  · intro hpar
    have ht : Int.tmod (x_modulus pitch x) 2 = 0 := (tmod_two_eq_zero_iff _).mpr hpar
    unfold getPixelIndex switchStmt
    simp only [hl]
    rw [if_pos ht, hxp, hyp]
    simp
    omega
  · intro hpar
    have ht : Int.tmod (x_modulus pitch x) 2 = 1 ∨ Int.tmod (x_modulus pitch x) 2 = -1 :=
      (tmod_two_odd_iff _).mpr hpar
    have ht0 : ¬ Int.tmod (x_modulus pitch x) 2 = 0 := by
      rw [tmod_two_eq_zero_iff]; omega
    unfold getPixelIndex switchStmt
    simp only [hl]
    rw [if_neg ht0, if_pos ht, hxp, hyp]
    simp

/-- Witness of C12: pitch 1, the position `(-3/4, 1.5*side)`, where `y_modulus = 5`
and `x_modulus = -1` is negative and odd (C++ remainder -1); the index is
`(col_guess - 1, row_guess) = (-1, 1)`. -/
theorem getPixelIndex_band_4_5_witness :
    (0 : ℝ) < 1
      ∧ (y_modulus (Real.sqrt 3) 1 ((3 / 2) * side (Real.sqrt 3) 1) = 4
          ∨ y_modulus (Real.sqrt 3) 1 ((3 / 2) * side (Real.sqrt 3) 1) = 5)
      ∧ x_modulus (1 : ℝ) (-3 / 4) = -1
      ∧ Int.tmod (x_modulus (1 : ℝ) (-3 / 4)) 2 = -1
      ∧ getPixelIndex (Real.sqrt 3) 1 (-3 / 4) ((3 / 2) * side (Real.sqrt 3) 1)
          = (Int.ceil (((-3 / 4 : ℝ) + 1 / 2) / 1) - 1,
             2 * Int.floor (((3 / 2) * side (Real.sqrt 3) 1 + 1 / Real.sqrt 3)
                / (3 * (1 / Real.sqrt 3))) + 1) := by
  have h1 : (0 : ℝ) < 1 := by norm_num
  have ex : (-3 / 4 : ℝ) = 1 * (-1 / 4) - 1 / 2 := by norm_num
  have ey : (3 / 2) * side (Real.sqrt 3) 1
      = 3 * side (Real.sqrt 3) 1 * (5 / 6) - side (Real.sqrt 3) 1 := by ring
  have hk : Int.floor (5 / 6 : ℝ) = 0 := by
    rw [Int.floor_eq_iff]; norm_num
  have hym : y_modulus (Real.sqrt 3) 1 ((3 / 2) * side (Real.sqrt 3) 1) = 5 := by
    rw [ey, y_modulus_at_unit 1 _ h1, hk, Int.floor_eq_iff]; norm_num
  have hxm : x_modulus (1 : ℝ) (-3 / 4) = -1 := by
    rw [ex, x_modulus_at_unit 1 _ h1, Int.floor_eq_iff]; norm_num
  have hodd : x_modulus (1 : ℝ) (-3 / 4) % 2 = 1 := by rw [hxm]; decide
  have htm : Int.tmod (x_modulus (1 : ℝ) (-3 / 4)) 2 = -1 := by rw [hxm]; decide
  exact ⟨h1, Or.inr hym, hxm, htm,
    (getPixelIndex_band_4_5 1 (-3 / 4) _ h1 (Or.inr hym)).2.1 hodd⟩

/-- C13 (counterexample). Pitch 1, position `(1/4, -side)`: band 0, `x_modulus = 1`
is odd, and the code applies the correction (only the row is decremented, the
index is (0, -1) instead of the uncorrected (0, 0)) although the test the claim
states for odd `x_modulus`, with slope `-1/sqrt 3`, is false there. -/
theorem getPixelIndex_band_0_odd_slope :
    y_modulus (Real.sqrt 3) 1 (-(side (Real.sqrt 3) 1)) = 0
      ∧ x_modulus (1 : ℝ) (1 / 4) % 2 = 1
      ∧ getPixelIndex (Real.sqrt 3) 1 (1 / 4) (-(side (Real.sqrt 3) 1))
          = (xpixel (1 : ℝ) (1 / 4) - 1,
             ypixel (Real.sqrt 3) 1 (-(side (Real.sqrt 3) 1)) - 1 - 1)
      ∧ getPixelIndex (Real.sqrt 3) 1 (1 / 4) (-(side (Real.sqrt 3) 1)) = (0, -1)
      ∧ ¬ (posy (Real.sqrt 3) 1 (-(side (Real.sqrt 3) 1))
            < -(1 / Real.sqrt 3) * posx (1 : ℝ) (1 / 4)
              + (3 * side (Real.sqrt 3) 1
                  * (Int.floor (posy (Real.sqrt 3) 1 (-(side (Real.sqrt 3) 1))
                      / (3 * side (Real.sqrt 3) 1)) : ℝ)
                - (1 / Real.sqrt 3) * (x_modulus (1 : ℝ) (1 / 4) : ℝ) * (1 / 2))) := by
  have h1 : (0 : ℝ) < 1 := by norm_num
  have hs := side_real_pos 1 h1
  have hside : side (Real.sqrt 3) 1 = 1 / Real.sqrt 3 := rfl
  have ex : (1 / 4 : ℝ) = 1 * (3 / 4) - 1 / 2 := by norm_num
  have ey : -(side (Real.sqrt 3) 1)
      = 3 * side (Real.sqrt 3) 1 * 0 - side (Real.sqrt 3) 1 := by ring
  have hk : Int.floor (0 : ℝ) = 0 := Int.floor_zero
  have hym : y_modulus (Real.sqrt 3) 1 (-(side (Real.sqrt 3) 1)) = 0 := by
    rw [ey, y_modulus_at_unit 1 _ h1, hk]; norm_num
  have hxm : x_modulus (1 : ℝ) (1 / 4) = 1 := by
    rw [ex, x_modulus_at_unit 1 _ h1, Int.floor_eq_iff]; norm_num
  have hodd : x_modulus (1 : ℝ) (1 / 4) % 2 = 1 := by rw [hxm]; decide
  have hxp : xpixel (1 : ℝ) (1 / 4) = 1 := by
    rw [ex, xpixel_at_unit 1 _ h1, Int.ceil_eq_iff]; norm_num
  have hyp : ypixel (Real.sqrt 3) 1 (-(side (Real.sqrt 3) 1)) = 1 := by
    rw [ey, ypixel_at_unit 1 _ h1, hk]; norm_num
  have hposx : posx (1 : ℝ) (1 / 4) = 3 / 4 := by
    unfold posx minor_radius; norm_num
  have hposy : posy (Real.sqrt 3) 1 (-(side (Real.sqrt 3) 1)) = 0 := by
    unfold posy; ring
  have hfl : Int.floor (posy (Real.sqrt 3) 1 (-(side (Real.sqrt 3) 1))
      / (3 * side (Real.sqrt 3) 1)) = 0 := by
    rw [hposy, zero_div, hk]
  have htest : posy (Real.sqrt 3) 1 (-(side (Real.sqrt 3) 1))
      < (1 / Real.sqrt 3) * posx (1 : ℝ) (1 / 4)
        + (3 * side (Real.sqrt 3) 1
            * (Int.floor (posy (Real.sqrt 3) 1 (-(side (Real.sqrt 3) 1))
                / (3 * side (Real.sqrt 3) 1)) : ℝ)
          - (1 / Real.sqrt 3) * (x_modulus (1 : ℝ) (1 / 4) : ℝ) * (1 / 2)) := by
    rw [hfl, hxm, hposx, hposy, ← hside]; push_cast; linarith
  have hcode := (getPixelIndex_case0 1 (1 / 4) (-(side (Real.sqrt 3) 1)) hym).2 hodd
  rw [if_pos htest] at hcode
  refine ⟨hym, hodd, hcode, ?_, ?_⟩
  · rw [hcode, hxp, hyp]; rfl
  · rw [hfl, hxm, hposx, hposy, ← hside]; push_cast; linarith

/-- C13 (amended). In band `y_modulus = 0`, for every pitch > 0, with
`k = floor(posy/(3*side))`: when `x_modulus` is even the line has slope
`-1/sqrt 3`, the correction is applied exactly when
`posy < -(1/sqrt 3)*posx + 3*side*k + (1/sqrt 3)*(x_modulus+1)*(pitch/2)`, and it
decrements both `col_guess` and `row_guess`; when `x_modulus` is odd the line has
slope `+1/sqrt 3`, the correction is applied exactly when
`posy < (1/sqrt 3)*posx + 3*side*k - (1/sqrt 3)*x_modulus*(pitch/2)`, and it
decrements `row_guess` only. -/
theorem getPixelIndex_band_0 (pitch x y : ℝ) (_hp : 0 < pitch)
    (hb : y_modulus (Real.sqrt 3) pitch y = 0) :
    (x_modulus pitch x % 2 = 0 →
        getPixelIndex (Real.sqrt 3) pitch x y
          = if posy (Real.sqrt 3) pitch y < -(1 / Real.sqrt 3) * posx pitch x
                + (3 * side (Real.sqrt 3) pitch
                    * (Int.floor (posy (Real.sqrt 3) pitch y
                        / (3 * side (Real.sqrt 3) pitch)) : ℝ)
                  + (1 / Real.sqrt 3) * ((x_modulus pitch x : ℝ) + 1) * (pitch / 2))
            then (xpixel pitch x - 1 - 1, ypixel (Real.sqrt 3) pitch y - 1 - 1)
            else (xpixel pitch x - 1, ypixel (Real.sqrt 3) pitch y - 1))
      ∧ (x_modulus pitch x % 2 = 1 →
        getPixelIndex (Real.sqrt 3) pitch x y
          = if posy (Real.sqrt 3) pitch y < (1 / Real.sqrt 3) * posx pitch x
                + (3 * side (Real.sqrt 3) pitch
                    * (Int.floor (posy (Real.sqrt 3) pitch y
                        / (3 * side (Real.sqrt 3) pitch)) : ℝ)
                  - (1 / Real.sqrt 3) * (x_modulus pitch x : ℝ) * (pitch / 2))
            then (xpixel pitch x - 1, ypixel (Real.sqrt 3) pitch y - 1 - 1)
            else (xpixel pitch x - 1, ypixel (Real.sqrt 3) pitch y - 1)) :=
  getPixelIndex_case0 pitch x y hb

/-- Witness of the amended C13: pitch 1, position `(-1/4, -0.75*side)`, band 0 with
`x_modulus = 0` even. -/
theorem getPixelIndex_band_0_witness :
    (0 : ℝ) < 1
      ∧ y_modulus (Real.sqrt 3) 1 (-(3 / 4) * side (Real.sqrt 3) 1) = 0
      ∧ x_modulus (1 : ℝ) (-1 / 4) % 2 = 0
      ∧ getPixelIndex (Real.sqrt 3) 1 (-1 / 4) (-(3 / 4) * side (Real.sqrt 3) 1)
          = if posy (Real.sqrt 3) 1 (-(3 / 4) * side (Real.sqrt 3) 1)
                < -(1 / Real.sqrt 3) * posx (1 : ℝ) (-1 / 4)
                  + (3 * side (Real.sqrt 3) 1
                      * (Int.floor (posy (Real.sqrt 3) 1 (-(3 / 4) * side (Real.sqrt 3) 1)
                          / (3 * side (Real.sqrt 3) 1)) : ℝ)
                    + (1 / Real.sqrt 3) * ((x_modulus (1 : ℝ) (-1 / 4) : ℝ) + 1) * (1 / 2))
            then (xpixel (1 : ℝ) (-1 / 4) - 1 - 1,
              ypixel (Real.sqrt 3) 1 (-(3 / 4) * side (Real.sqrt 3) 1) - 1 - 1)
            else (xpixel (1 : ℝ) (-1 / 4) - 1,
              ypixel (Real.sqrt 3) 1 (-(3 / 4) * side (Real.sqrt 3) 1) - 1) := by
  have h1 : (0 : ℝ) < 1 := by norm_num
  have ex : (-1 / 4 : ℝ) = 1 * (1 / 4) - 1 / 2 := by norm_num
  have ey : -(3 / 4) * side (Real.sqrt 3) 1
      = 3 * side (Real.sqrt 3) 1 * (1 / 12) - side (Real.sqrt 3) 1 := by ring
  have hk : Int.floor (1 / 12 : ℝ) = 0 := by
    rw [Int.floor_eq_iff]; norm_num
  have hym : y_modulus (Real.sqrt 3) 1 (-(3 / 4) * side (Real.sqrt 3) 1) = 0 := by
    rw [ey, y_modulus_at_unit 1 _ h1, hk, Int.floor_eq_iff]; norm_num
  have hxm : x_modulus (1 : ℝ) (-1 / 4) = 0 := by
    rw [ex, x_modulus_at_unit 1 _ h1, Int.floor_eq_iff]; norm_num
  have heven : x_modulus (1 : ℝ) (-1 / 4) % 2 = 0 := by rw [hxm]; decide
  exact ⟨h1, hym, heven, (getPixelIndex_band_0 1 (-1 / 4) _ h1 hym).1 heven⟩

/-- C14 (counterexample). Pitch 1, position `(1/4, (5/6)*side)`: band 3,
`x_modulus = 1` is odd, and the code applies the correction (only the row is
incremented, the index is (0, 1) instead of the uncorrected (0, 0)) although the
test the claim states for odd `x_modulus`, with slope `+1/sqrt 3`, is false there. -/
theorem getPixelIndex_band_3_odd_slope :
    y_modulus (Real.sqrt 3) 1 ((5 / 6) * side (Real.sqrt 3) 1) = 3
      ∧ x_modulus (1 : ℝ) (1 / 4) % 2 = 1
      ∧ getPixelIndex (Real.sqrt 3) 1 (1 / 4) ((5 / 6) * side (Real.sqrt 3) 1)
          = (xpixel (1 : ℝ) (1 / 4) - 1,
             ypixel (Real.sqrt 3) 1 ((5 / 6) * side (Real.sqrt 3) 1) + 1 - 1)
      ∧ getPixelIndex (Real.sqrt 3) 1 (1 / 4) ((5 / 6) * side (Real.sqrt 3) 1) = (0, 1)
      ∧ ¬ (posy (Real.sqrt 3) 1 ((5 / 6) * side (Real.sqrt 3) 1)
            > (1 / Real.sqrt 3) * posx (1 : ℝ) (1 / 4)
              + (side (Real.sqrt 3) 1
                  * (3 * (Int.floor (posy (Real.sqrt 3) 1 ((5 / 6) * side (Real.sqrt 3) 1)
                      / (3 * side (Real.sqrt 3) 1)) : ℝ) + 2)
                + (1 / Real.sqrt 3) * (1 / 2) * (x_modulus (1 : ℝ) (1 / 4) : ℝ))) := by
  have h1 : (0 : ℝ) < 1 := by norm_num
  have hs := side_real_pos 1 h1
  have hside : side (Real.sqrt 3) 1 = 1 / Real.sqrt 3 := rfl
  have ex : (1 / 4 : ℝ) = 1 * (3 / 4) - 1 / 2 := by norm_num
  have ey : (5 / 6) * side (Real.sqrt 3) 1
      = 3 * side (Real.sqrt 3) 1 * (11 / 18) - side (Real.sqrt 3) 1 := by ring
  have hk : Int.floor (11 / 18 : ℝ) = 0 := by
    rw [Int.floor_eq_iff]; norm_num
  have hym : y_modulus (Real.sqrt 3) 1 ((5 / 6) * side (Real.sqrt 3) 1) = 3 := by
    rw [ey, y_modulus_at_unit 1 _ h1, hk, Int.floor_eq_iff]; norm_num
  have hxm : x_modulus (1 : ℝ) (1 / 4) = 1 := by
    rw [ex, x_modulus_at_unit 1 _ h1, Int.floor_eq_iff]; norm_num
  have hodd : x_modulus (1 : ℝ) (1 / 4) % 2 = 1 := by rw [hxm]; decide
  have hxp : xpixel (1 : ℝ) (1 / 4) = 1 := by
    rw [ex, xpixel_at_unit 1 _ h1, Int.ceil_eq_iff]; norm_num
  have hyp : ypixel (Real.sqrt 3) 1 ((5 / 6) * side (Real.sqrt 3) 1) = 1 := by
    rw [ey, ypixel_at_unit 1 _ h1, hk]; norm_num
  have hposx : posx (1 : ℝ) (1 / 4) = 3 / 4 := by
    unfold posx minor_radius; norm_num
  have hposy : posy (Real.sqrt 3) 1 ((5 / 6) * side (Real.sqrt 3) 1)
      = (11 / 6) * side (Real.sqrt 3) 1 := by
    unfold posy; ring
  have hfl : Int.floor (posy (Real.sqrt 3) 1 ((5 / 6) * side (Real.sqrt 3) 1)
      / (3 * side (Real.sqrt 3) 1)) = 0 := by
    rw [ey, period_at_unit 1 _ h1, hk]
  have htest : posy (Real.sqrt 3) 1 ((5 / 6) * side (Real.sqrt 3) 1)
      > -(1 / Real.sqrt 3) * posx (1 : ℝ) (1 / 4)
        + (side (Real.sqrt 3) 1
            * (3 * (Int.floor (posy (Real.sqrt 3) 1 ((5 / 6) * side (Real.sqrt 3) 1)
                / (3 * side (Real.sqrt 3) 1)) : ℝ) + 2)
          + (1 / Real.sqrt 3) * (1 / 2) * (x_modulus (1 : ℝ) (1 / 4) : ℝ)) := by
    rw [hfl, hxm, hposx, hposy, ← hside]; push_cast; linarith
  have hcode := (getPixelIndex_case3 1 (1 / 4) ((5 / 6) * side (Real.sqrt 3) 1) hym).2 hodd
  rw [if_pos htest] at hcode
  refine ⟨hym, hodd, hcode, ?_, ?_⟩
  · rw [hcode, hxp, hyp]; rfl
  · rw [hfl, hxm, hposx, hposy, ← hside]; push_cast; linarith

/-- C14 (amended). In band `y_modulus = 3`, for every pitch > 0, with
`k = floor(posy/(3*side))`: when `x_modulus` is even the line has slope
`+1/sqrt 3`, the correction is applied exactly when
`posy > (1/sqrt 3)*posx + side*(3*k + 2) - (1/sqrt 3)*(pitch/2)*(x_modulus+1)`, and
it decrements `col_guess` and increments `row_guess`; when `x_modulus` is odd the
line has slope `-1/sqrt 3`, the correction is applied exactly when
`posy > -(1/sqrt 3)*posx + side*(3*k + 2) + (1/sqrt 3)*(pitch/2)*x_modulus`, and it
increments `row_guess` only. -/
theorem getPixelIndex_band_3 (pitch x y : ℝ) (_hp : 0 < pitch)
    (hb : y_modulus (Real.sqrt 3) pitch y = 3) :
    (x_modulus pitch x % 2 = 0 →
        getPixelIndex (Real.sqrt 3) pitch x y
          = if posy (Real.sqrt 3) pitch y > (1 / Real.sqrt 3) * posx pitch x
                + (side (Real.sqrt 3) pitch
                    * (3 * (Int.floor (posy (Real.sqrt 3) pitch y
                        / (3 * side (Real.sqrt 3) pitch)) : ℝ) + 2)
                  - (1 / Real.sqrt 3) * (pitch / 2) * ((x_modulus pitch x : ℝ) + 1))
            then (xpixel pitch x - 1 - 1, ypixel (Real.sqrt 3) pitch y + 1 - 1)
            else (xpixel pitch x - 1, ypixel (Real.sqrt 3) pitch y - 1))
      ∧ (x_modulus pitch x % 2 = 1 →
        getPixelIndex (Real.sqrt 3) pitch x y
          = if posy (Real.sqrt 3) pitch y > -(1 / Real.sqrt 3) * posx pitch x
                + (side (Real.sqrt 3) pitch
                    * (3 * (Int.floor (posy (Real.sqrt 3) pitch y
                        / (3 * side (Real.sqrt 3) pitch)) : ℝ) + 2)
                  + (1 / Real.sqrt 3) * (pitch / 2) * (x_modulus pitch x : ℝ))
            then (xpixel pitch x - 1, ypixel (Real.sqrt 3) pitch y + 1 - 1)
            else (xpixel pitch x - 1, ypixel (Real.sqrt 3) pitch y - 1)) :=
  getPixelIndex_case3 pitch x y hb

/-- Witness of the amended C14: pitch 1, position `(-1/4, (5/6)*side)`, band 3 with
`x_modulus = 0` even. -/
theorem getPixelIndex_band_3_witness :
    (0 : ℝ) < 1
      ∧ y_modulus (Real.sqrt 3) 1 ((5 / 6) * side (Real.sqrt 3) 1) = 3
      ∧ x_modulus (1 : ℝ) (-1 / 4) % 2 = 0
      ∧ getPixelIndex (Real.sqrt 3) 1 (-1 / 4) ((5 / 6) * side (Real.sqrt 3) 1)
          = if posy (Real.sqrt 3) 1 ((5 / 6) * side (Real.sqrt 3) 1)
                > (1 / Real.sqrt 3) * posx (1 : ℝ) (-1 / 4)
                  + (side (Real.sqrt 3) 1
                      * (3 * (Int.floor (posy (Real.sqrt 3) 1 ((5 / 6) * side (Real.sqrt 3) 1)
                          / (3 * side (Real.sqrt 3) 1)) : ℝ) + 2)
                    - (1 / Real.sqrt 3) * (1 / 2) * ((x_modulus (1 : ℝ) (-1 / 4) : ℝ) + 1))
            then (xpixel (1 : ℝ) (-1 / 4) - 1 - 1,
              ypixel (Real.sqrt 3) 1 ((5 / 6) * side (Real.sqrt 3) 1) + 1 - 1)
            else (xpixel (1 : ℝ) (-1 / 4) - 1,
              ypixel (Real.sqrt 3) 1 ((5 / 6) * side (Real.sqrt 3) 1) - 1) := by
  have h1 : (0 : ℝ) < 1 := by norm_num
  have ex : (-1 / 4 : ℝ) = 1 * (1 / 4) - 1 / 2 := by norm_num
  have ey : (5 / 6) * side (Real.sqrt 3) 1
      = 3 * side (Real.sqrt 3) 1 * (11 / 18) - side (Real.sqrt 3) 1 := by ring
  have hk : Int.floor (11 / 18 : ℝ) = 0 := by
    rw [Int.floor_eq_iff]; norm_num
  have hym : y_modulus (Real.sqrt 3) 1 ((5 / 6) * side (Real.sqrt 3) 1) = 3 := by
    rw [ey, y_modulus_at_unit 1 _ h1, hk, Int.floor_eq_iff]; norm_num
  have hxm : x_modulus (1 : ℝ) (-1 / 4) = 0 := by
    rw [ex, x_modulus_at_unit 1 _ h1, Int.floor_eq_iff]; norm_num
  have heven : x_modulus (1 : ℝ) (-1 / 4) % 2 = 0 := by rw [hxm]; decide
  exact ⟨h1, hym, heven, (getPixelIndex_band_3 1 (-1 / 4) _ h1 hym).1 heven⟩

/-- C15 (the code departs from the claim). 3 columns, pitch 2 and the odd row
count 4294967295: the `unsigned int` product `((rows-1)/2)*3 = 6442450941` wraps to
2147483645, so the returned height is `2147483645*side + 2*side` and not the
claimed `((rows-1)/2)*3*side + 2*side`; the width is the claimed `3*2 = 6`. -/
theorem getGridSize_height_wraps_odd :
    (getGridSize (Real.sqrt 3) 2 3 4294967295).1 = 3 * 2
      ∧ (getGridSize (Real.sqrt 3) 2 3 4294967295).2.1
          = 2147483645 * side (Real.sqrt 3) 2 + 2 * side (Real.sqrt 3) 2
      ∧ (getGridSize (Real.sqrt 3) 2 3 4294967295).2.1
          ≠ (((4294967295 - 1) / 2 : Nat) : ℝ) * 3 * side (Real.sqrt 3) 2
              + 2 * side (Real.sqrt 3) 2 := by
  have hs := side_real_pos 2 (by norm_num)
  have hside : side (Real.sqrt 3) 2 = 2 / Real.sqrt 3 := rfl
  have h : (getGridSize (Real.sqrt 3) 2 3 4294967295).2.1
      = 2147483645 * side (Real.sqrt 3) 2 + 2 * side (Real.sqrt 3) 2 := by
    rw [getGridSize_height_odd _ _ _ _ (by norm_num) (by norm_num), hside]
    norm_num
  refine ⟨?_, h, ?_⟩
  · rw [getGridSize_width]; norm_num
  · rw [h]
    norm_num
    intro hcontra
    linarith

/-- C16 (counterexample). 3 columns, pitch 2, rows = 0: the returned height is
`side / 2`, which is not 0. -/
theorem getGridSize_zero_rows_nonzero :
    (getGridSize (Real.sqrt 3) 2 3 0).2.1 = side (Real.sqrt 3) 2 / 2
      ∧ (getGridSize (Real.sqrt 3) 2 3 0).2.1 ≠ 0 := by
  have hs := side_real_pos 2 (by norm_num)
  have hside : side (Real.sqrt 3) 2 = 2 / Real.sqrt 3 := rfl
  have h : (getGridSize (Real.sqrt 3) 2 3 0).2.1 = side (Real.sqrt 3) 2 / 2 := by
    rw [getGridSize_height_even _ _ _ _ (by norm_num), hside]
    norm_num
  refine ⟨h, ?_⟩
  rw [h]
  exact ne_of_gt (by linarith)

/-- C16 (amended). For every column count and every pitch > 0, `getGridSize` with
rows = 0 has no special case: it takes the even branch and returns
`height = side / 2` with `side = pitch / sqrt 3`, which is positive. -/
theorem getGridSize_zero_rows (pitch : ℝ) (columns : Nat) (hp : 0 < pitch) :
    (getGridSize (Real.sqrt 3) pitch columns 0).2.1 = (pitch / Real.sqrt 3) / 2
      ∧ 0 < (getGridSize (Real.sqrt 3) pitch columns 0).2.1 := by
  have hs : 0 < pitch / Real.sqrt 3 := div_pos hp sqrt3_pos
  have h : (getGridSize (Real.sqrt 3) pitch columns 0).2.1 = (pitch / Real.sqrt 3) / 2 := by
    rw [getGridSize_height_even _ _ _ _ (by norm_num)]
    norm_num
  refine ⟨h, ?_⟩
  rw [h]
  linarith

/-- Witness of the amended C16: 3 columns, pitch 2. -/
theorem getGridSize_zero_rows_witness :
    (0 : ℝ) < 2
      ∧ (getGridSize (Real.sqrt 3) 2 3 0).2.1 = (2 / Real.sqrt 3) / 2
      ∧ 0 < (getGridSize (Real.sqrt 3) 2 3 0).2.1 :=
  ⟨by norm_num, getGridSize_zero_rows 2 3 (by norm_num)⟩

/-- C17 (the code departs from the claim). 3 columns, pitch 2: going from 2863311531
rows to 2863311532 rows the `unsigned int` product `(rows/2)*3 = 4294967298` wraps
to 2 and the returned height drops from `4294967295*side + 2*side` to
`2*side + side/2`. -/
theorem getGridSize_height_not_monotone :
    (getGridSize (Real.sqrt 3) 2 3 2863311531).2.1
        = 4294967295 * side (Real.sqrt 3) 2 + 2 * side (Real.sqrt 3) 2
      ∧ (getGridSize (Real.sqrt 3) 2 3 (2863311531 + 1)).2.1
        = 2 * side (Real.sqrt 3) 2 + side (Real.sqrt 3) 2 / 2
      ∧ (getGridSize (Real.sqrt 3) 2 3 (2863311531 + 1)).2.1
        < (getGridSize (Real.sqrt 3) 2 3 2863311531).2.1 := by
  have hs := side_real_pos 2 (by norm_num)
  have hside : side (Real.sqrt 3) 2 = 2 / Real.sqrt 3 := rfl
  have h1 : (getGridSize (Real.sqrt 3) 2 3 2863311531).2.1
      = 4294967295 * side (Real.sqrt 3) 2 + 2 * side (Real.sqrt 3) 2 := by
    rw [getGridSize_height_odd _ _ _ _ (by norm_num) (by norm_num), hside]
    norm_num
  have h2 : (getGridSize (Real.sqrt 3) 2 3 (2863311531 + 1)).2.1
      = 2 * side (Real.sqrt 3) 2 + side (Real.sqrt 3) 2 / 2 := by
    rw [getGridSize_height_even _ _ _ _ (by norm_num), hside]
    norm_num
  refine ⟨h1, h2, ?_⟩
  rw [h1, h2]
  linarith

/-- C18 (the code departs from the claim). 3 columns, pitch 2: from 2863311530 rows
to 2863311532 rows the `unsigned int` product wraps, and the height changes by
`-4294967293*side`, not by `3*side`. -/
theorem getGridSize_height_add_two_wraps :
    (getGridSize (Real.sqrt 3) 2 3 (2863311530 + 2)).2.1
        - (getGridSize (Real.sqrt 3) 2 3 2863311530).2.1
        = -4294967293 * side (Real.sqrt 3) 2
      ∧ (getGridSize (Real.sqrt 3) 2 3 (2863311530 + 2)).2.1
        - (getGridSize (Real.sqrt 3) 2 3 2863311530).2.1
        ≠ 3 * side (Real.sqrt 3) 2 := by
  have hs := side_real_pos 2 (by norm_num)
  have hside : side (Real.sqrt 3) 2 = 2 / Real.sqrt 3 := rfl
  have h : (getGridSize (Real.sqrt 3) 2 3 (2863311530 + 2)).2.1
        - (getGridSize (Real.sqrt 3) 2 3 2863311530).2.1
      = -4294967293 * side (Real.sqrt 3) 2 := by
    rw [getGridSize_height_even _ _ _ _ (by norm_num),
      getGridSize_height_even _ _ _ _ (by norm_num), hside]
    norm_num
    ring
  refine ⟨h, ?_⟩
  rw [h]
  intro hcontra
  linarith

/-- C19 (the code departs from the claim). A detector of 1 x 1 pixels with pitch 1:
the position (2, 0) lies outside hexagon (0, 0), the only pixel of the grid, and
`getPixelIndex` returns the computed index (2, 0), not (-1, -1). -/
theorem getPixelIndex_out_of_grid :
    ¬ inHexagon (Real.sqrt 3) 1 2 0 0 0
      ∧ getPixelIndex (Real.sqrt 3) 1 2 0 = (2, 0)
      ∧ getPixelIndex (Real.sqrt 3) 1 2 0 ≠ (-1, -1) := by
  have h := getPixelIndex_at_unit 1 (((2 : Int) : ℝ) + 1 / 2) (((0 : Int) : ℝ) + 1 / 3)
    (by norm_num)
  rw [unitIndex_even_centre] at h
  have ex : (1 : ℝ) * (((2 : Int) : ℝ) + 1 / 2) - 1 / 2 = 2 := by norm_num
  have ey : 3 * side (Real.sqrt 3) 1 * (((0 : Int) : ℝ) + 1 / 3) - side (Real.sqrt 3) 1
      = 0 := by
    push_cast; ring
  rw [ex, ey] at h
  refine ⟨?_, h, ?_⟩
  · unfold inHexagon
    norm_num
  · rw [h]; decide

/-- C20 (the code departs from the claim). Pitch 2 and the odd row count 2863311533:
the `unsigned int` product `((rows-1)/2)*3 = 4294967298` wraps to 2, so the
returned height is `4*side` and not the closed form `side*(3*rows + 1)/2`. -/
theorem getGridSize_height_not_closed_form :
    (getGridSize (Real.sqrt 3) 2 3 2863311533).2.1 = 4 * side (Real.sqrt 3) 2
      ∧ (getGridSize (Real.sqrt 3) 2 3 2863311533).2.1
          ≠ side (Real.sqrt 3) 2 * (3 * ((2863311533 : Nat) : ℝ) + 1) / 2
      ∧ (3 / 2) * side (Real.sqrt 3) 2 * (((2863311533 : Nat) : ℝ) - 1)
            + 2 * side (Real.sqrt 3) 2
          = side (Real.sqrt 3) 2 * (3 * ((2863311533 : Nat) : ℝ) + 1) / 2 := by
  have hs := side_real_pos 2 (by norm_num)
  have hside : side (Real.sqrt 3) 2 = 2 / Real.sqrt 3 := rfl
  have h : (getGridSize (Real.sqrt 3) 2 3 2863311533).2.1 = 4 * side (Real.sqrt 3) 2 := by
    rw [getGridSize_height_odd _ _ _ _ (by norm_num) (by norm_num), hside]
    norm_num
    ring
  refine ⟨h, ?_, by ring⟩
  rw [h]
  intro hcontra
  push_cast at hcontra
  linarith

/-- C21 (the code departs from the claim). With the selector `y_modulus = -2`
(C++ remainder `-2 % 6 = -2`, outside 0..5) the `switch` jumps to `default`,
which sets `xpixel = ypixel = -1`; the `return` statement of line 98 then
subtracts 1 and the caller gets (-2, -2), not (-1, -1), whatever the other locals. -/
theorem switchReturn_default_not_sentinel (sqrt3 side minor_radius posx posy : ℝ)
    (x_modulus xpixel ypixel : Int) :
    Int.tmod (-2) 6 = -2
      ∧ switchLabel (Int.tmod (-2) 6) = Label.default
      ∧ switchStmt sqrt3 side minor_radius posx posy x_modulus (-2) xpixel ypixel = (-1, -1)
      ∧ switchReturn sqrt3 side minor_radius posx posy x_modulus (-2) xpixel ypixel
          = (-2, -2)
      ∧ switchReturn sqrt3 side minor_radius posx posy x_modulus (-2) xpixel ypixel
          ≠ (-1, -1) := by
  have ht : Int.tmod (-2) 6 = -2 := by decide
  have hl : switchLabel (Int.tmod (-2) 6) = Label.default := by decide
  have hr := switchReturn_default sqrt3 side minor_radius posx posy x_modulus (-2)
    xpixel ypixel hl
  refine ⟨ht, hl, ?_, hr, ?_⟩
  · unfold switchStmt
    simp only [hl]
  · rw [hr]; decide

/-- C22 (the code departs from the claim). Pitch 1, `y = 1.5*side`, `x1 = 1/4` and
`x2 = 1/2`: `x1 ≤ x2`, yet `getPixelIndex` returns column 0 at `x1` and column -1
at `x2`. -/
theorem getPixelIndex_column_not_monotone :
    (1 / 4 : ℝ) ≤ 1 / 2
      ∧ getPixelIndex (Real.sqrt 3) 1 (1 / 4) ((3 / 2) * side (Real.sqrt 3) 1) = (0, 1)
      ∧ getPixelIndex (Real.sqrt 3) 1 (1 / 2) ((3 / 2) * side (Real.sqrt 3) 1) = (-1, 1)
      ∧ (getPixelIndex (Real.sqrt 3) 1 (1 / 2) ((3 / 2) * side (Real.sqrt 3) 1)).1
          < (getPixelIndex (Real.sqrt 3) 1 (1 / 4) ((3 / 2) * side (Real.sqrt 3) 1)).1 := by
  have h1 : (0 : ℝ) < 1 := by norm_num
  have ey : 3 * side (Real.sqrt 3) 1 * (((0 : Int) : ℝ) + 5 / 6) - side (Real.sqrt 3) 1
      = (3 / 2) * side (Real.sqrt 3) 1 := by
    push_cast; ring
  have ey' : 3 * side (Real.sqrt 3) 1 * (5 / 6) - side (Real.sqrt 3) 1
      = (3 / 2) * side (Real.sqrt 3) 1 := by ring
  have ha := getPixelIndex_at_unit 1 (((0 : Int) : ℝ) + 3 / 4) (((0 : Int) : ℝ) + 5 / 6) h1
  rw [unitIndex_odd_sample, ey] at ha
  have ex1 : (1 : ℝ) * (((0 : Int) : ℝ) + 3 / 4) - 1 / 2 = 1 / 4 := by norm_num
  rw [ex1] at ha
  have hb := getPixelIndex_at_unit 1 ((1 : Int) : ℝ) (5 / 6) h1
  rw [unitIndex_int_column, ey'] at hb
  have ex2 : (1 : ℝ) * ((1 : Int) : ℝ) - 1 / 2 = 1 / 2 := by norm_num
  rw [ex2] at hb
  refine ⟨by norm_num, ?_, ?_, ?_⟩
  · rw [ha]; rfl
  · rw [hb]; rfl
  · rw [ha, hb]; decide

/-- C23. Scale invariance: for every pitch > 0, every scale factor k > 0 and every
position (x, y), `getPixelIndex` at position (k*x, k*y) with pitch k*pitch returns
the same index as `getPixelIndex` at (x, y) with pitch. -/
theorem getPixelIndex_scale (pitch k x y : ℝ) (hp : 0 < pitch) (hk : 0 < k) :
    getPixelIndex (Real.sqrt 3) (k * pitch) (k * x) (k * y)
      = getPixelIndex (Real.sqrt 3) pitch x y := by
  have hq0 : Real.sqrt 3 ≠ 0 := ne_of_gt sqrt3_pos
  have hp0 : pitch ≠ 0 := ne_of_gt hp
  have hk0 : k ≠ 0 := ne_of_gt hk
  have hkp : 0 < k * pitch := mul_pos hk hp
  have eu : posx (k * pitch) (k * x) / (k * pitch) = posx pitch x / pitch := by
    unfold posx minor_radius; field_simp; ring
  have ev : posy (Real.sqrt 3) (k * pitch) (k * y) / (3 * side (Real.sqrt 3) (k * pitch))
      = posy (Real.sqrt 3) pitch y / (3 * side (Real.sqrt 3) pitch) := by
    unfold posy side; field_simp; ring
  rw [getPixelIndex_real _ _ _ hkp, getPixelIndex_real _ _ _ hp, eu, ev]

/-- Witness of C23: pitch 1, scale factor 2, position (1/4, 0). -/
theorem getPixelIndex_scale_witness :
    (0 : ℝ) < 1 ∧ (0 : ℝ) < 2
      ∧ getPixelIndex (Real.sqrt 3) (2 * 1) (2 * (1 / 4)) (2 * 0)
          = getPixelIndex (Real.sqrt 3) 1 (1 / 4) 0 :=
  ⟨by norm_num, by norm_num, getPixelIndex_scale 1 2 (1 / 4) 0 (by norm_num) (by norm_num)⟩

/-- C24 (the code departs from the claim). The row count 2863311532 is below `2^32`,
and the `unsigned int` product `(rows/2)*3 = 4294967298` does wrap, to 2; with
3 columns and pitch 2 the returned height is `2.5*side`, not the exact value
`side*(3*rows + 1)/2`. -/
theorem getGridSize_product_wraps :
    2863311532 < 2 ^ 32
      ∧ 2863311532 / 2 * 3 = 4294967298
      ∧ (2863311532 / 2 * 3) % 2 ^ 32 = 2
      ∧ (getGridSize (Real.sqrt 3) 2 3 2863311532).2.1 = (5 / 2) * side (Real.sqrt 3) 2
      ∧ (getGridSize (Real.sqrt 3) 2 3 2863311532).2.1
          ≠ side (Real.sqrt 3) 2 * (3 * ((2863311532 : Nat) : ℝ) + 1) / 2 := by
  have hs := side_real_pos 2 (by norm_num)
  have hside : side (Real.sqrt 3) 2 = 2 / Real.sqrt 3 := rfl
  have h : (getGridSize (Real.sqrt 3) 2 3 2863311532).2.1
      = (5 / 2) * side (Real.sqrt 3) 2 := by
    rw [getGridSize_height_even _ _ _ _ (by norm_num), hside]
    norm_num
    ring
  refine ⟨by norm_num, by norm_num, by norm_num, h, ?_⟩
  rw [h]
  intro hcontra
  push_cast at hcontra
  linarith

end HexagonalPixelDetectorModel
end allpix
